import Mathlib

/-!
# Multisig wallet service and balance ledger: embedding and verified properties

A shallow embedding of `internal/wallet/models.go`, `internal/wallet/service.go`
(namespace `Wallet`) and `internal/token/token.go` (namespace `Ledger`).

* The entity structs keep their Go names and fields; the `CreatedAt` / `UpdatedAt`
  timestamps are left out (wall-clock values, never read by the service).
* The persistence handle `WalletService.DB` is an explicit value `DB` holding the four
  tables as row lists in insertion order.  Every service method takes the store and
  returns its result together with the store it leaves behind.
* Go `uint` identities, counts and thresholds are natural numbers; the one place where
  the machine representation matters, the conversion `int(input.Threshold)`, is
  modelled with explicit arithmetic modulo `2 ^ 64`.
-/

namespace Wallet

/-! ## Entity model (`models.go`) -/

/-- Owner represents an individual wallet owner. -/
structure Owner where
  ID : Nat
  WalletID : Nat
  Address : String
deriving DecidableEq

/-- Approval represents who approved a transaction. -/
structure Approval where
  ID : Nat
  TransactionID : Nat
  OwnerID : Nat
deriving DecidableEq

/-- Transaction is a request that needs multisig approval.  `Approvals` is the
has-many association, filled only by a preloading read. -/
structure Transaction where
  ID : Nat
  WalletID : Nat
  To : String
  Amount : Nat
  Status : String
  Approvals : List Approval
deriving DecidableEq

/-- MultiSigWallet represents the multisig wallet itself.  `Owners` and `Transactions`
are has-many associations, filled only by a preloading read. -/
structure MultiSigWallet where
  ID : Nat
  Name : String
  Owners : List Owner
  Threshold : Nat
  Transactions : List Transaction
deriving DecidableEq

/-- The two status strings the service writes. -/
def statusPending : String := "pending"

/-- Status written once the approval threshold is reached. -/
def statusReady : String := "ready_to_execute"

/-! ## The persistence collaborator -/

/-- Columns of the wallets table (the association fields are not columns). -/
structure WalletRow where
  ID : Nat
  Name : String
  Threshold : Nat
deriving DecidableEq

/-- Columns of the transactions table. -/
structure TransactionRow where
  ID : Nat
  WalletID : Nat
  To : String
  Amount : Nat
  Status : String
deriving DecidableEq

/-- The store behind `WalletService.DB`: four tables, rows in insertion order. -/
structure DB where
  wallets : List WalletRow
  owners : List Owner
  transactions : List TransactionRow
  approvals : List Approval
deriving DecidableEq

/-- The store right after `AutoMigrate`: all tables empty. -/
def DB.empty : DB := ⟨[], [], [], []⟩

/-- Largest identity in a table (0 for an empty table). -/
def maxID : List Nat → Nat
  | [] => 0
  | x :: xs => max x (maxID xs)

/-- Identity given by the auto-increment primary key to the next inserted row. -/
def nextID (ids : List Nat) : Nat := maxID ids + 1

/-- `DB.Create(wallet)`: inserts the wallet row and returns the identity written back
into the struct. -/
def DB.createWallet (db : DB) (name : String) (threshold : Nat) : Nat × DB :=
  let id := nextID (db.wallets.map (·.ID))
  (id, { db with wallets := db.wallets ++ [⟨id, name, threshold⟩] })

/-- `DB.Create(&owner)` for an owner of wallet `walletID` with the given address. -/
def DB.createOwner (db : DB) (walletID : Nat) (address : String) : DB :=
  { db with owners := db.owners ++ [⟨nextID (db.owners.map (·.ID)), walletID, address⟩] }

/-- `DB.Create(&tx)`: inserts the transaction row and returns its new identity. -/
def DB.createTransaction (db : DB) (walletID : Nat) (dest : String) (amount : Nat)
    (status : String) : Nat × DB :=
  let id := nextID (db.transactions.map (·.ID))
  (id, { db with transactions := db.transactions ++ [⟨id, walletID, dest, amount, status⟩] })

/-- `DB.Create(&approval)`. -/
def DB.createApproval (db : DB) (transactionID ownerID : Nat) : DB :=
  { db with approvals :=
      db.approvals ++ [⟨nextID (db.approvals.map (·.ID)), transactionID, ownerID⟩] }

/-- Rows of the owners table whose foreign key is `walletID` (what `Preload("Owners")`
reads). -/
def DB.ownersOf (db : DB) (walletID : Nat) : List Owner :=
  db.owners.filter (fun o => decide (o.WalletID = walletID))

/-- Rows of the approvals table whose foreign key is `transactionID` (what
`Preload("Approvals")` reads). -/
def DB.approvalsOf (db : DB) (transactionID : Nat) : List Approval :=
  db.approvals.filter (fun a => decide (a.TransactionID = transactionID))

/-- `DB.Preload("Owners").First(&wallet, id)`; `none` stands for `ErrRecordNotFound`. -/
def DB.firstWallet (db : DB) (id : Nat) : Option MultiSigWallet :=
  match db.wallets.find? (fun w => decide (w.ID = id)) with
  | none => none
  | some w => some ⟨w.ID, w.Name, db.ownersOf w.ID, w.Threshold, []⟩

/-- `DB.Preload("Approvals").First(&transaction, id)`; `none` stands for
`ErrRecordNotFound`. -/
def DB.firstTransaction (db : DB) (id : Nat) : Option Transaction :=
  match db.transactions.find? (fun t => decide (t.ID = id)) with
  | none => none
  | some t => some ⟨t.ID, t.WalletID, t.To, t.Amount, t.Status, db.approvalsOf t.ID⟩

/-- `DB.Save(&transaction)` for a record loaded by primary key: the row with that
identity gets the column values of the struct. -/
def DB.saveTransaction (db : DB) (t : Transaction) : DB :=
  { db with transactions := db.transactions.map (fun r =>
      if r.ID = t.ID then ⟨t.ID, t.WalletID, t.To, t.Amount, t.Status⟩ else r) }

/-! ## The service (`service.go`) -/

/-- The errors the three service methods return. -/
inductive ServiceError
  | invalidThreshold
  | walletNotFound
  | notOwnerSubmit
  | transactionNotFound
  | notPending
  | notOwnerApprove
  | duplicateApproval
  | recordNotFound
  | reloadFailed
deriving DecidableEq

/-- The message of each error, as built by `errors.New` / `fmt.Errorf`. -/
def ServiceError.Error : ServiceError → String
  | .invalidThreshold => "threshold cannot be greater than number of owners"
  | .walletNotFound => "wallet not found: record not found"
  | .notOwnerSubmit => "only wallet owners can submit transactions"
  | .transactionNotFound => "transaction not found: record not found"
  | .notPending => "only pending transactions can be approved"
  | .notOwnerApprove => "only wallet owners can approve transactions"
  | .duplicateApproval => "transaction already approved by this owner"
  | .recordNotFound => "record not found"
  | .reloadFailed => "failed to reload transaction: record not found"

structure CreateWalletInput where
  Name : String
  Owners : List String
  Threshold : Nat
deriving DecidableEq

structure SubmitTransactionInput where
  WalletID : Nat
  From : String
  To : String
  Amount : Nat
deriving DecidableEq

structure ApproveTransactionInput where
  TransactionID : Nat
  OwnerAddress : String
deriving DecidableEq

/-- Number of bits of Go's `uint` and `int` (64-bit targets). -/
def uintBits : Nat := 64

/-- The Go conversion `int(x)` of a `uint` value: the same bits read as two's
complement. -/
def uintToInt (x : Nat) : Int :=
  if x % 2 ^ uintBits < 2 ^ (uintBits - 1) then ((x % 2 ^ uintBits : Nat) : Int)
  else ((x % 2 ^ uintBits : Nat) : Int) - ((2 ^ uintBits : Nat) : Int)

/-- The owner-lookup loop shared by `SubmitTransaction` and `ApproveTransaction`:
scans the owners in order and stops at the first whose address matches, returning
`(isOwner, ownerID)`. -/
def resolveOwner : List Owner → String → Bool × Nat
  | [], _ => (false, 0)
  | o :: rest, address =>
      if o.Address = address then (true, o.ID) else resolveOwner rest address

/-- The duplicate-approval loop of `ApproveTransaction`. -/
def alreadyApproved : List Approval → Nat → Bool
  | [], _ => false
  | a :: rest, ownerID => if a.OwnerID = ownerID then true else alreadyApproved rest ownerID

/-- The owner-creation loop of `CreateWallet`. -/
def createOwners (db : DB) (walletID : Nat) : List String → DB
  | [] => db
  | address :: rest => createOwners (db.createOwner walletID address) walletID rest

/-- `WalletService.CreateWallet`. -/
def CreateWallet (db : DB) (input : CreateWalletInput) :
    Except ServiceError MultiSigWallet × DB :=
  if (input.Owners.length : Int) < uintToInt input.Threshold then
    (.error .invalidThreshold, db)
  else
    let created := db.createWallet input.Name input.Threshold
    let db2 := createOwners created.2 created.1 input.Owners
    match db2.firstWallet created.1 with
    | none => (.error .recordNotFound, db2)
    | some wallet => (.ok wallet, db2)

/-- `WalletService.SubmitTransaction`. -/
def SubmitTransaction (db : DB) (input : SubmitTransactionInput) :
    Except ServiceError Transaction × DB :=
  match db.firstWallet input.WalletID with
  | none => (.error .walletNotFound, db)
  | some wallet =>
    let found := resolveOwner wallet.Owners input.From
    if found.1 = false then
      (.error .notOwnerSubmit, db)
    else
      let created := db.createTransaction wallet.ID input.To input.Amount statusPending
      let db2 := created.2.createApproval created.1 found.2
      (.ok ⟨created.1, wallet.ID, input.To, input.Amount, statusPending, []⟩, db2)

/-- `WalletService.ApproveTransaction`. -/
def ApproveTransaction (db : DB) (input : ApproveTransactionInput) :
    Except ServiceError Transaction × DB :=
  match db.firstTransaction input.TransactionID with
  | none => (.error .transactionNotFound, db)
  | some transaction =>
    if transaction.Status ≠ statusPending then
      (.error .notPending, db)
    else
      match db.firstWallet transaction.WalletID with
      | none => (.error .walletNotFound, db)
      | some wallet =>
        let found := resolveOwner wallet.Owners input.OwnerAddress
        if found.1 = false then
          (.error .notOwnerApprove, db)
        else if alreadyApproved transaction.Approvals found.2 = true then
          (.error .duplicateApproval, db)
        else
          let db2 := db.createApproval transaction.ID found.2
          match db2.firstTransaction transaction.ID with
          | none => (.error .reloadFailed, db2)
          | some reloaded =>
            if wallet.Threshold ≤ reloaded.Approvals.length then
              let updated : Transaction := { reloaded with Status := statusReady }
              (.ok updated, db2.saveTransaction updated)
            else
              (.ok reloaded, db2)

/-! ## Runs of the service -/

/-- One call of the service. -/
inductive Call
  | createWallet (input : CreateWalletInput)
  | submitTransaction (input : SubmitTransactionInput)
  | approveTransaction (input : ApproveTransactionInput)
deriving DecidableEq

/-- The store a call leaves behind, whether it succeeds or fails. -/
def Call.run (db : DB) : Call → DB
  | .createWallet input => (CreateWallet db input).2
  | .submitTransaction input => (SubmitTransaction db input).2
  | .approveTransaction input => (ApproveTransaction db input).2

/-- The store after a sequence of calls run one at a time from the empty store. -/
def runCalls (calls : List Call) : DB := calls.foldl Call.run DB.empty

/-- The states reachable from the empty store by service calls run one at a time. -/
inductive Reachable : DB → Prop
  | empty : Reachable DB.empty
  | step (db : DB) (c : Call) : Reachable db → Reachable (c.run db)

/-! ## Concrete runs used to exercise the statements -/

/-- The three owner addresses of the repository's tests. -/
def testOwners : List String := ["0xOwner1", "0xOwner2", "0xOwner3"]

/-- A 2-of-3 wallet; the first owner submits, the second approves. -/
def quorumRun : List Call :=
  [.createWallet ⟨"Test Wallet", testOwners, 2⟩,
   .submitTransaction ⟨1, "0xOwner1", "0xRecipient", 100⟩,
   .approveTransaction ⟨1, "0xOwner2"⟩]

/-- A 3-of-3 wallet; the first owner submits, the second approves
(`TestApproveTransaction` up to its first approval). -/
def pendingRun : List Call :=
  [.createWallet ⟨"Test Wallet", testOwners, 3⟩,
   .submitTransaction ⟨1, "0xOwner1", "0xRecipient", 100⟩,
   .approveTransaction ⟨1, "0xOwner2"⟩]

/-- A 1-of-1 wallet whose only owner submits a transaction. -/
def soloRun : List Call :=
  [.createWallet ⟨"Solo", ["0xOwner1"], 1⟩,
   .submitTransaction ⟨1, "0xOwner1", "0xRecipient", 100⟩]

/-- A 2-of-4 wallet on which the first owner has just submitted a transaction. -/
def freshRun : List Call :=
  [.createWallet ⟨"Test Wallet", ["0xOwner1", "0xOwner2", "0xOwner3", "0xOwner4"], 2⟩,
   .submitTransaction ⟨1, "0xOwner1", "0xRecipient", 100⟩]

/-- Approval attempts on one transaction by the given addresses, taking effect one at
a time in the order of the list: the store they leave behind. -/
def approveAll : DB → Nat → List String → DB
  | db, _, [] => db
  | db, transactionID, address :: rest =>
      approveAll (ApproveTransaction db ⟨transactionID, address⟩).2 transactionID rest

/-! ## Integrity of the store and the invariant of the service -/

/-- Relational integrity of a store state: primary keys are unique and every declared
foreign key (owner to wallet, transaction to wallet, approval to transaction) points
to a stored row. -/
structure Consistent (db : DB) : Prop where
  walletIDs : (db.wallets.map (·.ID)).Nodup
  ownerIDs : (db.owners.map (·.ID)).Nodup
  transactionIDs : (db.transactions.map (·.ID)).Nodup
  approvalIDs : (db.approvals.map (·.ID)).Nodup
  ownerWallet : ∀ o ∈ db.owners, ∃ w ∈ db.wallets, w.ID = o.WalletID
  transactionWallet : ∀ t ∈ db.transactions, ∃ w ∈ db.wallets, w.ID = t.WalletID
  approvalTransaction : ∀ a ∈ db.approvals, ∃ t ∈ db.transactions, t.ID = a.TransactionID

/-- The invariant kept by the three service methods: integrity of the store; every
approval is by an owner of the wallet of its transaction, namely the owner the lookup
loop returns for that owner's address; the approvals of one transaction are by
pairwise distinct owners; every status is one of the two the service writes; and a
transaction that is ready to execute has reached the threshold of its wallet. -/
structure Inv (db : DB) extends Consistent db : Prop where
  approvalOwner : ∀ a ∈ db.approvals, ∀ t ∈ db.transactions, t.ID = a.TransactionID →
    ∃ o ∈ db.ownersOf t.WalletID, o.ID = a.OwnerID ∧
      resolveOwner (db.ownersOf t.WalletID) o.Address = (true, o.ID)
  approvalDistinct : ∀ tid, ((db.approvalsOf tid).map (·.OwnerID)).Nodup
  status : ∀ t ∈ db.transactions, t.Status = statusPending ∨ t.Status = statusReady
  quorum : ∀ t ∈ db.transactions, t.Status = statusReady →
    ∀ w ∈ db.wallets, w.ID = t.WalletID → w.Threshold ≤ (db.approvalsOf t.ID).length

end Wallet

/-! ## The balance ledger (`internal/token/token.go`)

`Token.Balances` is a Go `map[string]uint64`; it is embedded as the list of its
entries, read and written through `mapGet` and `mapSet`.  The `uint64` additions and
the subtraction wrap modulo `2 ^ 64` as in Go.  The mutex only serialises the calls,
so a method is a function from the ledger before the call to the ledger after it. -/

namespace Ledger

/-- Token represents our blockchain token. -/
structure Token where
  Name : String
  Symbol : String
  Decimals : Nat
  TotalSupply : Nat
  Balances : List (String × Nat)
deriving DecidableEq

/-- Go `m[k]` on a `map[string]uint64`: the stored value, or 0 for a missing key. -/
def mapGet : List (String × Nat) → String → Nat
  | [], _ => 0
  | e :: rest, k => if e.1 = k then e.2 else mapGet rest k

/-- Go `m[k] = v`: overwrites the entry of `k`, or adds one when the key is missing. -/
def mapSet : List (String × Nat) → String → Nat → List (String × Nat)
  | [], k, v => [(k, v)]
  | e :: rest, k, v => if e.1 = k then (k, v) :: rest else e :: mapSet rest k v

/-- Sum of all balances held in the map. -/
def sumBalances (m : List (String × Nat)) : Nat := (m.map (·.2)).sum

/-- Go `x + y` on `uint64`. -/
def add64 (x y : Nat) : Nat := (x + y) % 2 ^ 64

/-- Go `x - y` on `uint64`. -/
def sub64 (x y : Nat) : Nat := (x + 2 ^ 64 - y) % 2 ^ 64

/-- The error `Transfer` can return. -/
inductive TokenError
  | insufficientBalance
deriving DecidableEq

/-- The message of the error, as built by `errors.New`. -/
def TokenError.Error : TokenError → String
  | .insufficientBalance => "insufficient balance"

/-- NewToken initializes a new token. -/
def NewToken (name symbol : String) (decimals : Nat) (initialSupply : Nat) : Token :=
  ⟨name, symbol, decimals, initialSupply, []⟩

/-- Mint adds new tokens to an address. -/
def Token.Mint (t : Token) (toAddr : String) (amount : Nat) : Token :=
  let balances := mapSet t.Balances toAddr (add64 (mapGet t.Balances toAddr) amount)
  { t with Balances := balances, TotalSupply := add64 t.TotalSupply amount }

/-- Transfer moves tokens between accounts; `none` is the Go `nil` error. -/
def Token.Transfer (t : Token) (fromAddr toAddr : String) (amount : Nat) :
    Option TokenError × Token :=
  if mapGet t.Balances fromAddr < amount then
    (some .insufficientBalance, t)
  else
    let debited := mapSet t.Balances fromAddr (sub64 (mapGet t.Balances fromAddr) amount)
    let credited := mapSet debited toAddr (add64 (mapGet debited toAddr) amount)
    (none, { t with Balances := credited })

/-- The values a ledger can hold: `TotalSupply` and every balance are `uint64`, and a
map has one entry per key. -/
structure Token.WellTyped (t : Token) : Prop where
  supply : t.TotalSupply < 2 ^ 64
  balances : ∀ e ∈ t.Balances, e.2 < 2 ^ 64
  keys : (t.Balances.map (·.1)).Nodup

/-- One call on the ledger. -/
inductive LedgerCall
  | mint (toAddr : String) (amount : Nat)
  | transfer (fromAddr toAddr : String) (amount : Nat)
deriving DecidableEq

/-- The ledger a call leaves behind, whether it succeeds or fails. -/
def LedgerCall.run (t : Token) : LedgerCall → Token
  | .mint toAddr amount => t.Mint toAddr amount
  | .transfer fromAddr toAddr amount => (t.Transfer fromAddr toAddr amount).2

/-- The ledgers reachable from `NewToken(name, symbol, decimals, s)` by any sequence of
`Mint` and `Transfer` calls. -/
inductive LedgerReachable (name symbol : String) (decimals s : Nat) : Token → Prop
  | init : LedgerReachable name symbol decimals s (NewToken name symbol decimals s)
  | step (t : Token) (c : LedgerCall) :
      LedgerReachable name symbol decimals s t →
      LedgerReachable name symbol decimals s (c.run t)

/-- The token of the repository's test. -/
def testToken : Token := NewToken "BlackHole" "BHT" 18 1000000

end Ledger

namespace Wallet

/-! ## Basic facts about the store primitives -/

theorem le_maxID {l : List Nat} {x : Nat} (h : x ∈ l) : x ≤ maxID l := by
  induction l with
  | nil => cases h
  | cons y ys ih =>
    rcases List.mem_cons.mp h with rfl | h1
    · exact le_max_left _ _
    · exact le_trans (ih h1) (le_max_right _ _)

theorem lt_nextID {l : List Nat} {x : Nat} (h : x ∈ l) : x < nextID l :=
  Nat.lt_succ_of_le (le_maxID h)

theorem nextID_not_mem (l : List Nat) : nextID l ∉ l :=
  fun h => Nat.lt_irrefl _ (lt_nextID h)

/-- A row found by a key lookup is in the table and has the key looked up. -/
theorem find_key_some {α : Type} {k : α → Nat} {l : List α} {id : Nat} {r : α}
    (h : l.find? (fun x => decide (k x = id)) = some r) : r ∈ l ∧ k r = id := by
  refine ⟨List.mem_of_find?_eq_some h, ?_⟩
  have := List.find?_some h
  simpa using this

/-- A key lookup finds nothing exactly when no row has the key. -/
theorem find_key_none {α : Type} {k : α → Nat} {l : List α} {id : Nat} :
    l.find? (fun x => decide (k x = id)) = none ↔ ∀ x ∈ l, k x ≠ id := by
  simp [List.find?_eq_none]

/-- With unique keys, the lookup of a stored row's key returns that row. -/
theorem find_key_of_mem {α : Type} {k : α → Nat} {l : List α} {r : α}
    (hnd : (l.map k).Nodup) (hr : r ∈ l) :
    l.find? (fun x => decide (k x = k r)) = some r := by
  induction l with
  | nil => cases hr
  | cons y ys ih =>
    rw [List.map_cons, List.nodup_cons] at hnd
    rcases List.mem_cons.mp hr with rfl | h1
    · simp
    · have hne : k y ≠ k r := by
        intro he
        exact hnd.1 (he ▸ List.mem_map_of_mem k h1)
      simp [List.find?_cons, hne, ih hnd.2 h1]

/-- Appending rows does not change a lookup that already succeeds. -/
theorem find_append_some {α : Type} {p : α → Bool} {l l2 : List α} {r : α}
    (h : l.find? p = some r) : (l ++ l2).find? p = some r := by
  simp [List.find?_append, h]

theorem resolveOwner_false {l : List Owner} {address : String} :
    (resolveOwner l address).1 = false ↔ ∀ o ∈ l, o.Address ≠ address := by
  induction l with
  | nil => simp [resolveOwner]
  | cons o rest ih =>
    by_cases h : o.Address = address
    · simp [resolveOwner, h]
    · simp [resolveOwner, h, ih]

/-- A successful owner lookup returns the identity of an owner in the list with the
address looked up. -/
theorem resolveOwner_true {l : List Owner} {address : String}
    (h : (resolveOwner l address).1 = true) :
    ∃ o ∈ l, o.Address = address ∧ (resolveOwner l address).2 = o.ID := by
  induction l with
  | nil => simp [resolveOwner] at h
  | cons o rest ih =>
    by_cases ha : o.Address = address
    · exact ⟨o, List.mem_cons_self _ _, ha, by simp [resolveOwner, ha]⟩
    · simp only [resolveOwner, ha, if_false] at h ⊢
      obtain ⟨o2, ho2, h2⟩ := ih h
      exact ⟨o2, List.mem_cons_of_mem _ ho2, h2⟩

/-- Owners appended to the list do not change a lookup that already succeeds. -/
theorem resolveOwner_append {l l2 : List Owner} {address : String}
    (h : (resolveOwner l address).1 = true) :
    resolveOwner (l ++ l2) address = resolveOwner l address := by
  induction l with
  | nil => simp [resolveOwner] at h
  | cons o rest ih =>
    by_cases ha : o.Address = address
    · simp [resolveOwner, ha]
    · simp only [resolveOwner, ha, if_false, List.cons_append] at h ⊢
      exact ih h

theorem alreadyApproved_true {l : List Approval} {ownerID : Nat} :
    alreadyApproved l ownerID = true ↔ ownerID ∈ l.map (·.OwnerID) := by
  induction l with
  | nil => simp [alreadyApproved]
  | cons a rest ih =>
    by_cases h : a.OwnerID = ownerID
    · simp [alreadyApproved, h]
    · have h2 : ¬ ownerID = a.OwnerID := fun e => h e.symm
      simp [alreadyApproved, h, h2, ih]

theorem statusReady_ne_pending : statusReady ≠ statusPending := by decide

theorem nodup_append_nextID {l : List Nat} (h : l.Nodup) : (l ++ [nextID l]).Nodup := by
  rw [List.nodup_append]
  refine ⟨h, List.nodup_singleton _, ?_⟩
  intro x hx hx2
  rw [List.mem_singleton] at hx2
  exact nextID_not_mem l (hx2 ▸ hx)

theorem ownersOf_createOwner (db : DB) (wid : Nat) (address : String) (x : Nat) :
    (db.createOwner wid address).ownersOf x =
      db.ownersOf x ++
        (if wid = x then [⟨nextID (db.owners.map (·.ID)), wid, address⟩] else []) := by
  by_cases h : wid = x <;> simp [DB.createOwner, DB.ownersOf, List.filter_append, h]

theorem approvalsOf_createApproval (db : DB) (tid oid : Nat) (x : Nat) :
    (db.createApproval tid oid).approvalsOf x =
      db.approvalsOf x ++
        (if tid = x then [⟨nextID (db.approvals.map (·.ID)), tid, oid⟩] else []) := by
  by_cases h : tid = x <;> simp [DB.createApproval, DB.approvalsOf, List.filter_append, h]

theorem mem_ownersOf {db : DB} {wid : Nat} {o : Owner} :
    o ∈ db.ownersOf wid ↔ o ∈ db.owners ∧ o.WalletID = wid := by
  simp [DB.ownersOf]

theorem mem_approvalsOf {db : DB} {tid : Nat} {a : Approval} :
    a ∈ db.approvalsOf tid ↔ a ∈ db.approvals ∧ a.TransactionID = tid := by
  simp [DB.approvalsOf]

/-! ## The invariant is kept by every store primitive the service uses -/

theorem Inv.init : Inv DB.empty := by
  refine ⟨⟨?_, ?_, ?_, ?_, ?_, ?_, ?_⟩, ?_, ?_, ?_, ?_⟩ <;> simp [DB.empty, DB.approvalsOf]

theorem Inv.createWallet {db : DB} (h : Inv db) (name : String) (threshold : Nat) :
    Inv (db.createWallet name threshold).2 := by
  have hfresh : ∀ t ∈ db.transactions, t.WalletID ≠ nextID (db.wallets.map (·.ID)) := by
    intro t ht he
    obtain ⟨w, hw, hwt⟩ := h.transactionWallet t ht
    have hm : w.ID ∈ db.wallets.map (·.ID) := List.mem_map_of_mem _ hw
    rw [hwt, he] at hm
    exact nextID_not_mem _ hm
  refine ⟨⟨?_, h.ownerIDs, h.transactionIDs, h.approvalIDs, ?_, ?_, h.approvalTransaction⟩,
    h.approvalOwner, h.approvalDistinct, h.status, ?_⟩
  · simpa [DB.createWallet] using nodup_append_nextID h.walletIDs
  · intro o ho
    obtain ⟨w, hw, hwo⟩ := h.ownerWallet o ho
    exact ⟨w, List.mem_append_left _ hw, hwo⟩
  · intro t ht
    obtain ⟨w, hw, hwt⟩ := h.transactionWallet t ht
    exact ⟨w, List.mem_append_left _ hw, hwt⟩
  · intro t ht hs w hw hwt
    rcases List.mem_append.mp hw with hw1 | hw1
    · exact h.quorum t ht hs w hw1 hwt
    · rw [List.mem_singleton] at hw1
      subst hw1
      exact absurd hwt.symm (hfresh t ht)

theorem Inv.createOwner {db : DB} (h : Inv db) {wid : Nat}
    (hw : ∃ w ∈ db.wallets, w.ID = wid) (address : String) :
    Inv (db.createOwner wid address) := by
  refine ⟨⟨h.walletIDs, ?_, h.transactionIDs, h.approvalIDs, ?_, h.transactionWallet,
    h.approvalTransaction⟩, ?_, h.approvalDistinct, h.status, h.quorum⟩
  · simpa [DB.createOwner] using nodup_append_nextID h.ownerIDs
  · intro o ho
    rcases List.mem_append.mp ho with ho1 | ho1
    · exact h.ownerWallet o ho1
    · rw [List.mem_singleton] at ho1
      subst ho1
      exact hw
  · intro a ha t ht hta
    obtain ⟨o, ho, hoa, hres⟩ := h.approvalOwner a ha t ht hta
    refine ⟨o, ?_, hoa, ?_⟩
    · rw [ownersOf_createOwner]
      exact List.mem_append_left _ ho
    · rw [ownersOf_createOwner, resolveOwner_append (by rw [hres]), hres]

theorem Inv.createOwners {db : DB} (h : Inv db) {wid : Nat}
    (hw : ∃ w ∈ db.wallets, w.ID = wid) (addresses : List String) :
    Inv (createOwners db wid addresses) := by
  induction addresses generalizing db with
  | nil => exact h
  | cons a rest ih => exact ih (h.createOwner hw a) hw

theorem Inv.createTransaction {db : DB} (h : Inv db) {wid : Nat}
    (hw : ∃ w ∈ db.wallets, w.ID = wid) (dest : String) (amount : Nat) :
    Inv (db.createTransaction wid dest amount statusPending).2 := by
  have hfresh : ∀ a ∈ db.approvals,
      a.TransactionID ≠ nextID (db.transactions.map (·.ID)) := by
    intro a ha he
    obtain ⟨t, ht, hta⟩ := h.approvalTransaction a ha
    have hm : t.ID ∈ db.transactions.map (·.ID) := List.mem_map_of_mem _ ht
    rw [hta, he] at hm
    exact nextID_not_mem _ hm
  refine ⟨⟨h.walletIDs, h.ownerIDs, ?_, h.approvalIDs, h.ownerWallet, ?_, ?_⟩,
    ?_, h.approvalDistinct, ?_, ?_⟩
  · simpa [DB.createTransaction] using nodup_append_nextID h.transactionIDs
  · intro t ht
    rcases List.mem_append.mp ht with ht1 | ht1
    · exact h.transactionWallet t ht1
    · rw [List.mem_singleton] at ht1
      subst ht1
      exact hw
  · intro a ha
    obtain ⟨t, ht, hta⟩ := h.approvalTransaction a ha
    exact ⟨t, List.mem_append_left _ ht, hta⟩
  · intro a ha t ht hta
    rcases List.mem_append.mp ht with ht1 | ht1
    · exact h.approvalOwner a ha t ht1 hta
    · rw [List.mem_singleton] at ht1
      subst ht1
      exact absurd hta.symm (hfresh a ha)
  · intro t ht
    rcases List.mem_append.mp ht with ht1 | ht1
    · exact h.status t ht1
    · rw [List.mem_singleton] at ht1
      subst ht1
      exact Or.inl rfl
  · intro t ht hs w hww hwt
    rcases List.mem_append.mp ht with ht1 | ht1
    · exact h.quorum t ht1 hs w hww hwt
    · rw [List.mem_singleton] at ht1
      subst ht1
      exact absurd hs.symm statusReady_ne_pending

theorem Inv.createApproval {db : DB} (h : Inv db) {t : TransactionRow} {oid : Nat}
    (ht : t ∈ db.transactions)
    (ho : ∃ o ∈ db.ownersOf t.WalletID, o.ID = oid ∧
      resolveOwner (db.ownersOf t.WalletID) o.Address = (true, o.ID))
    (hnew : oid ∉ (db.approvalsOf t.ID).map (·.OwnerID)) :
    Inv (db.createApproval t.ID oid) := by
  refine ⟨⟨h.walletIDs, h.ownerIDs, h.transactionIDs, ?_, h.ownerWallet,
    h.transactionWallet, ?_⟩, ?_, ?_, h.status, ?_⟩
  · simpa [DB.createApproval] using nodup_append_nextID h.approvalIDs
  · intro a ha
    rcases List.mem_append.mp ha with ha1 | ha1
    · exact h.approvalTransaction a ha1
    · rw [List.mem_singleton] at ha1
      subst ha1
      exact ⟨t, ht, rfl⟩
  · intro a ha t2 ht2 hta
    rcases List.mem_append.mp ha with ha1 | ha1
    · exact h.approvalOwner a ha1 t2 ht2 hta
    · rw [List.mem_singleton] at ha1
      subst ha1
      have he : t2 = t := List.inj_on_of_nodup_map h.transactionIDs ht2 ht hta
      subst he
      exact ho
  · intro x
    rw [approvalsOf_createApproval]
    by_cases hx : t.ID = x
    · subst hx
      simp only [if_true, List.map_append, List.map_cons, List.map_nil]
      rw [List.nodup_append]
      refine ⟨h.approvalDistinct _, List.nodup_singleton _, ?_⟩
      intro y hy hy2
      rw [List.mem_singleton] at hy2
      exact hnew (hy2 ▸ hy)
    · simpa [hx] using h.approvalDistinct x
  · intro t2 ht2 hs w hw hwt
    have := h.quorum t2 ht2 hs w hw hwt
    rw [approvalsOf_createApproval, List.length_append]
    omega

/-- Writing the ready status of a stored transaction keeps the invariant, provided
its approvals have reached the threshold of its wallet. -/
theorem Inv.saveTransaction {db : DB} (h : Inv db) {r : TransactionRow}
    (hr : r ∈ db.transactions) (t : Transaction)
    (hid : t.ID = r.ID) (hwid : t.WalletID = r.WalletID) (hst : t.Status = statusReady)
    (hq : ∀ w ∈ db.wallets, w.ID = r.WalletID →
      w.Threshold ≤ (db.approvalsOf r.ID).length) :
    Inv (db.saveTransaction t) := by
  have hf : ∀ x ∈ db.transactions,
      (if x.ID = t.ID then (⟨t.ID, t.WalletID, t.To, t.Amount, t.Status⟩ : TransactionRow)
        else x).ID = x.ID ∧
      (if x.ID = t.ID then (⟨t.ID, t.WalletID, t.To, t.Amount, t.Status⟩ : TransactionRow)
        else x).WalletID = x.WalletID ∧
      ((if x.ID = t.ID then (⟨t.ID, t.WalletID, t.To, t.Amount, t.Status⟩ : TransactionRow)
        else x) = x ∨ x = r) := by
    intro x hx
    by_cases hxt : x.ID = t.ID
    · have he : x = r := List.inj_on_of_nodup_map h.transactionIDs hx hr (hxt.trans hid)
      subst he
      simp [hxt, hwid]
    · simp [hxt]
  have hmem : ∀ t2 ∈ (db.saveTransaction t).transactions, ∃ x ∈ db.transactions,
      t2.ID = x.ID ∧ t2.WalletID = x.WalletID ∧
        (t2 = x ∨ (x = r ∧ t2.Status = statusReady)) := by
    intro t2 ht2
    simp only [DB.saveTransaction, List.mem_map] at ht2
    obtain ⟨x, hx, hx2⟩ := ht2
    obtain ⟨h1, h2, h3⟩ := hf x hx
    rw [hx2] at h1 h2 h3
    refine ⟨x, hx, h1, h2, ?_⟩
    rcases h3 with h3 | h3
    · exact Or.inl h3
    · by_cases hxt : x.ID = t.ID
      · right
        refine ⟨h3, ?_⟩
        rw [← hx2]
        simp [hxt, hst]
      · left
        rw [← hx2]
        simp [hxt]
  refine ⟨⟨h.walletIDs, h.ownerIDs, ?_, h.approvalIDs, h.ownerWallet, ?_, ?_⟩,
    ?_, h.approvalDistinct, ?_, ?_⟩
  · have : (db.saveTransaction t).transactions.map (·.ID) = db.transactions.map (·.ID) := by
      simp only [DB.saveTransaction, List.map_map]
      apply List.map_congr_left
      intro x hx
      exact (hf x hx).1
    rw [this]
    exact h.transactionIDs
  · intro t2 ht2
    obtain ⟨x, hx, _, h2, _⟩ := hmem t2 ht2
    rw [h2]
    exact h.transactionWallet x hx
  · intro a ha
    obtain ⟨x, hx, hxa⟩ := h.approvalTransaction a ha
    refine ⟨_, List.mem_map_of_mem _ hx, ?_⟩
    rw [(hf x hx).1]
    exact hxa
  · intro a ha t2 ht2 hta
    obtain ⟨x, hx, h1, h2, _⟩ := hmem t2 ht2
    rw [h2]
    exact h.approvalOwner a ha x hx (h1 ▸ hta)
  · intro t2 ht2
    obtain ⟨x, hx, _, _, h3⟩ := hmem t2 ht2
    rcases h3 with h3 | h3
    · rw [h3]
      exact h.status x hx
    · exact Or.inr h3.2
  · intro t2 ht2 hs w hw hwt
    obtain ⟨x, hx, h1, h2, h3⟩ := hmem t2 ht2
    rcases h3 with h3 | h3
    · subst h3
      exact h.quorum t2 hx hs w hw hwt
    · rw [h1, h3.1]
      rw [h2, h3.1] at hwt
      exact hq w hw hwt

/-! ## Closed forms of the three service methods -/

theorem createOwners_wallets (db : DB) (wid : Nat) (addresses : List String) :
    (createOwners db wid addresses).wallets = db.wallets := by
  induction addresses generalizing db with
  | nil => rfl
  | cons a rest ih => rw [createOwners, ih]; rfl

theorem createOwners_transactions (db : DB) (wid : Nat) (addresses : List String) :
    (createOwners db wid addresses).transactions = db.transactions := by
  induction addresses generalizing db with
  | nil => rfl
  | cons a rest ih => rw [createOwners, ih]; rfl

theorem createOwners_approvals (db : DB) (wid : Nat) (addresses : List String) :
    (createOwners db wid addresses).approvals = db.approvals := by
  induction addresses generalizing db with
  | nil => rfl
  | cons a rest ih => rw [createOwners, ih]; rfl

/-- The lookup of a freshly inserted wallet row finds that row. -/
theorem find_fresh_wallet (l : List WalletRow) (name : String) (threshold : Nat) :
    (l ++ [(⟨nextID (l.map (·.ID)), name, threshold⟩ : WalletRow)]).find?
        (fun w => decide (w.ID = nextID (l.map (·.ID)))) =
      some ⟨nextID (l.map (·.ID)), name, threshold⟩ := by
  have hnone : l.find? (fun w => decide (w.ID = nextID (l.map (·.ID)))) = none := by
    rw [find_key_none]
    intro x hx he
    have hm : x.ID ∈ l.map (·.ID) := List.mem_map_of_mem _ hx
    rw [he] at hm
    exact nextID_not_mem _ hm
  simp [List.find?_append, hnone]

/-- When the threshold guard passes, `CreateWallet` succeeds: it inserts the wallet row
and one owner row per address and returns the wallet reloaded with its owners. -/
theorem CreateWallet_ok (db : DB) (input : CreateWalletInput)
    (hg : ¬ (input.Owners.length : Int) < uintToInt input.Threshold) :
    CreateWallet db input =
      (.ok ⟨nextID (db.wallets.map (·.ID)), input.Name,
          (createOwners (db.createWallet input.Name input.Threshold).2
            (nextID (db.wallets.map (·.ID))) input.Owners).ownersOf
              (nextID (db.wallets.map (·.ID))),
          input.Threshold, []⟩,
        createOwners (db.createWallet input.Name input.Threshold).2
          (nextID (db.wallets.map (·.ID))) input.Owners) := by
  have hf : (createOwners (db.createWallet input.Name input.Threshold).2
      (nextID (db.wallets.map (·.ID))) input.Owners).firstWallet
        (nextID (db.wallets.map (·.ID))) =
      some ⟨nextID (db.wallets.map (·.ID)), input.Name,
          (createOwners (db.createWallet input.Name input.Threshold).2
            (nextID (db.wallets.map (·.ID))) input.Owners).ownersOf
              (nextID (db.wallets.map (·.ID))),
          input.Threshold, []⟩ := by
    unfold DB.firstWallet
    rw [createOwners_wallets]
    simp only [DB.createWallet]
    rw [find_fresh_wallet]
  simp only [CreateWallet, hg, if_false]
  simp only [DB.createWallet] at hf ⊢
  rw [hf]

/-- The guard of `CreateWallet` rejects the input with the store untouched. -/
theorem CreateWallet_rejected (db : DB) (input : CreateWalletInput)
    (hg : (input.Owners.length : Int) < uintToInt input.Threshold) :
    CreateWallet db input = (.error .invalidThreshold, db) := by
  simp [CreateWallet, hg]

/-- Success path of `SubmitTransaction` in closed form. -/
theorem SubmitTransaction_ok {db : DB} {input : SubmitTransactionInput} {w : WalletRow}
    (hw : db.wallets.find? (fun x => decide (x.ID = input.WalletID)) = some w)
    (ho : (resolveOwner (db.ownersOf w.ID) input.From).1 = true) :
    SubmitTransaction db input =
      (.ok ⟨nextID (db.transactions.map (·.ID)), w.ID, input.To, input.Amount,
          statusPending, []⟩,
        (db.createTransaction w.ID input.To input.Amount statusPending).2.createApproval
          (nextID (db.transactions.map (·.ID)))
          (resolveOwner (db.ownersOf w.ID) input.From).2) := by
  simp [SubmitTransaction, DB.firstWallet, hw, ho, DB.createTransaction]

/-- Every call of `SubmitTransaction` either fails leaving the store as it was, or
meets the conditions of the success path. -/
theorem SubmitTransaction_cases (db : DB) (input : SubmitTransactionInput) :
    (∃ e, SubmitTransaction db input = (.error e, db)) ∨
    ∃ w, db.wallets.find? (fun x => decide (x.ID = input.WalletID)) = some w ∧
      (resolveOwner (db.ownersOf w.ID) input.From).1 = true := by
  cases hw : db.wallets.find? (fun x => decide (x.ID = input.WalletID)) with
  | none =>
    exact Or.inl ⟨.walletNotFound, by simp [SubmitTransaction, DB.firstWallet, hw]⟩
  | some w =>
    by_cases ho : (resolveOwner (db.ownersOf w.ID) input.From).1 = true
    · exact Or.inr ⟨w, rfl, ho⟩
    · exact Or.inl ⟨.notOwnerSubmit, by simp [SubmitTransaction, DB.firstWallet, hw, ho]⟩

/-- Success path of `ApproveTransaction` in closed form: one approval row is inserted;
the transaction is returned with its old approvals followed by the new one; the ready
status is written exactly when the new count reaches the threshold. -/
theorem ApproveTransaction_ok {db : DB} {input : ApproveTransactionInput}
    {r : TransactionRow} {w : WalletRow}
    (hr : db.transactions.find? (fun t => decide (t.ID = input.TransactionID)) = some r)
    (hp : r.Status = statusPending)
    (hw : db.wallets.find? (fun x => decide (x.ID = r.WalletID)) = some w)
    (ho : (resolveOwner (db.ownersOf w.ID) input.OwnerAddress).1 = true)
    (hd : alreadyApproved (db.approvalsOf r.ID)
      (resolveOwner (db.ownersOf w.ID) input.OwnerAddress).2 = false) :
    ApproveTransaction db input =
      if w.Threshold ≤ (db.approvalsOf r.ID).length + 1 then
        (.ok ⟨r.ID, r.WalletID, r.To, r.Amount, statusReady,
            db.approvalsOf r.ID ++ [⟨nextID (db.approvals.map (·.ID)), r.ID,
              (resolveOwner (db.ownersOf w.ID) input.OwnerAddress).2⟩]⟩,
          (db.createApproval r.ID
            (resolveOwner (db.ownersOf w.ID) input.OwnerAddress).2).saveTransaction
            ⟨r.ID, r.WalletID, r.To, r.Amount, statusReady,
              db.approvalsOf r.ID ++ [⟨nextID (db.approvals.map (·.ID)), r.ID,
                (resolveOwner (db.ownersOf w.ID) input.OwnerAddress).2⟩]⟩)
      else
        (.ok ⟨r.ID, r.WalletID, r.To, r.Amount, r.Status,
            db.approvalsOf r.ID ++ [⟨nextID (db.approvals.map (·.ID)), r.ID,
              (resolveOwner (db.ownersOf w.ID) input.OwnerAddress).2⟩]⟩,
          db.createApproval r.ID
            (resolveOwner (db.ownersOf w.ID) input.OwnerAddress).2) := by
  have hrid : r.ID = input.TransactionID := (find_key_some hr).2
  have hr2 : db.transactions.find? (fun t => decide (t.ID = r.ID)) = some r := by
    rw [hrid]; exact hr
  have hreload : (db.createApproval r.ID
      (resolveOwner (db.ownersOf w.ID) input.OwnerAddress).2).firstTransaction r.ID =
      some ⟨r.ID, r.WalletID, r.To, r.Amount, r.Status,
        db.approvalsOf r.ID ++ [⟨nextID (db.approvals.map (·.ID)), r.ID,
          (resolveOwner (db.ownersOf w.ID) input.OwnerAddress).2⟩]⟩ := by
    unfold DB.firstTransaction
    have : (db.createApproval r.ID
      (resolveOwner (db.ownersOf w.ID) input.OwnerAddress).2).transactions
        = db.transactions := rfl
    rw [this, hr2]
    simp [approvalsOf_createApproval]
  have h1 : db.firstTransaction input.TransactionID =
      some ⟨r.ID, r.WalletID, r.To, r.Amount, r.Status, db.approvalsOf r.ID⟩ := by
    simp [DB.firstTransaction, hr]
  have h2 : db.firstWallet r.WalletID =
      some ⟨w.ID, w.Name, db.ownersOf w.ID, w.Threshold, []⟩ := by
    simp [DB.firstWallet, hw]
  unfold ApproveTransaction
  simp only [h1, h2, hp, ne_eq, not_true_eq_false, if_false, ho, Bool.true_eq_false, hd,
    Bool.false_eq_true, hreload, List.length_append, List.length_singleton]

/-! ### The failure paths of `ApproveTransaction` -/

theorem ApproveTransaction_transactionNotFound {db : DB} {input : ApproveTransactionInput}
    (hr : db.transactions.find? (fun t => decide (t.ID = input.TransactionID)) = none) :
    ApproveTransaction db input = (.error .transactionNotFound, db) := by
  simp [ApproveTransaction, DB.firstTransaction, hr]

theorem ApproveTransaction_notPending {db : DB} {input : ApproveTransactionInput}
    {r : TransactionRow}
    (hr : db.transactions.find? (fun t => decide (t.ID = input.TransactionID)) = some r)
    (hp : r.Status ≠ statusPending) :
    ApproveTransaction db input = (.error .notPending, db) := by
  simp [ApproveTransaction, DB.firstTransaction, hr, hp]

theorem ApproveTransaction_walletNotFound {db : DB} {input : ApproveTransactionInput}
    {r : TransactionRow}
    (hr : db.transactions.find? (fun t => decide (t.ID = input.TransactionID)) = some r)
    (hp : r.Status = statusPending)
    (hw : db.wallets.find? (fun x => decide (x.ID = r.WalletID)) = none) :
    ApproveTransaction db input = (.error .walletNotFound, db) := by
  simp [ApproveTransaction, DB.firstTransaction, hr, hp, DB.firstWallet, hw]

theorem ApproveTransaction_notOwner {db : DB} {input : ApproveTransactionInput}
    {r : TransactionRow} {w : WalletRow}
    (hr : db.transactions.find? (fun t => decide (t.ID = input.TransactionID)) = some r)
    (hp : r.Status = statusPending)
    (hw : db.wallets.find? (fun x => decide (x.ID = r.WalletID)) = some w)
    (ho : (resolveOwner (db.ownersOf w.ID) input.OwnerAddress).1 = false) :
    ApproveTransaction db input = (.error .notOwnerApprove, db) := by
  simp [ApproveTransaction, DB.firstTransaction, hr, hp, DB.firstWallet, hw, ho]

theorem ApproveTransaction_duplicate {db : DB} {input : ApproveTransactionInput}
    {r : TransactionRow} {w : WalletRow}
    (hr : db.transactions.find? (fun t => decide (t.ID = input.TransactionID)) = some r)
    (hp : r.Status = statusPending)
    (hw : db.wallets.find? (fun x => decide (x.ID = r.WalletID)) = some w)
    (ho : (resolveOwner (db.ownersOf w.ID) input.OwnerAddress).1 = true)
    (hd : alreadyApproved (db.approvalsOf r.ID)
      (resolveOwner (db.ownersOf w.ID) input.OwnerAddress).2 = true) :
    ApproveTransaction db input = (.error .duplicateApproval, db) := by
  simp [ApproveTransaction, DB.firstTransaction, hr, hp, DB.firstWallet, hw, ho, hd]

/-- Every call of `ApproveTransaction` either fails leaving the store as it was, or
meets the conditions of the success path. -/
theorem ApproveTransaction_cases (db : DB) (input : ApproveTransactionInput) :
    (∃ e, ApproveTransaction db input = (.error e, db)) ∨
    ∃ r w, db.transactions.find? (fun t => decide (t.ID = input.TransactionID)) = some r ∧
      r.Status = statusPending ∧
      db.wallets.find? (fun x => decide (x.ID = r.WalletID)) = some w ∧
      (resolveOwner (db.ownersOf w.ID) input.OwnerAddress).1 = true ∧
      alreadyApproved (db.approvalsOf r.ID)
        (resolveOwner (db.ownersOf w.ID) input.OwnerAddress).2 = false := by
  cases hr : db.transactions.find? (fun t => decide (t.ID = input.TransactionID)) with
  | none => exact Or.inl ⟨_, ApproveTransaction_transactionNotFound hr⟩
  | some r =>
    by_cases hp : r.Status = statusPending
    · cases hw : db.wallets.find? (fun x => decide (x.ID = r.WalletID)) with
      | none => exact Or.inl ⟨_, ApproveTransaction_walletNotFound hr hp hw⟩
      | some w =>
        cases ho : (resolveOwner (db.ownersOf w.ID) input.OwnerAddress).1 with
        | false => exact Or.inl ⟨_, ApproveTransaction_notOwner hr hp hw ho⟩
        | true =>
          cases hd : alreadyApproved (db.approvalsOf r.ID)
              (resolveOwner (db.ownersOf w.ID) input.OwnerAddress).2 with
          | true => exact Or.inl ⟨_, ApproveTransaction_duplicate hr hp hw ho hd⟩
          | false => exact Or.inr ⟨r, w, rfl, hp, hw, ho, hd⟩
    · exact Or.inl ⟨_, ApproveTransaction_notPending hr hp⟩

/-! ## The invariant holds in every reachable state -/

/-- In a store with integrity no approval refers to the identity the next transaction
will get. -/
theorem approvalsOf_nextID {db : DB} (h : Consistent db) :
    db.approvalsOf (nextID (db.transactions.map (·.ID))) = [] := by
  rw [DB.approvalsOf, List.filter_eq_nil_iff]
  intro a ha
  obtain ⟨t, ht, hta⟩ := h.approvalTransaction a ha
  have hm : t.ID ∈ db.transactions.map (·.ID) := List.mem_map_of_mem _ ht
  rw [hta] at hm
  simp only [decide_eq_true_eq]
  intro he
  rw [he] at hm
  exact nextID_not_mem _ hm

/-- What a successful owner lookup yields, in the form the invariant records it. -/
theorem resolveOwner_owner {l : List Owner} {address : String}
    (h : (resolveOwner l address).1 = true) :
    ∃ o ∈ l, o.ID = (resolveOwner l address).2 ∧ o.Address = address ∧
      resolveOwner l o.Address = (true, o.ID) := by
  obtain ⟨o, ho, ha, hid⟩ := resolveOwner_true h
  refine ⟨o, ho, hid.symm, ha, ?_⟩
  rw [ha]
  exact Prod.ext h hid

theorem Inv.CreateWallet {db : DB} (h : Inv db) (input : CreateWalletInput) :
    Inv (CreateWallet db input).2 := by
  by_cases hg : (input.Owners.length : Int) < uintToInt input.Threshold
  · rw [CreateWallet_rejected db input hg]
    exact h
  · rw [CreateWallet_ok db input hg]
    refine (h.createWallet input.Name input.Threshold).createOwners ?_ input.Owners
    exact ⟨_, List.mem_append_right _ (List.mem_singleton_self _), rfl⟩

theorem Inv.SubmitTransaction {db : DB} (h : Inv db) (input : SubmitTransactionInput) :
    Inv (SubmitTransaction db input).2 := by
  rcases SubmitTransaction_cases db input with ⟨e, he⟩ | ⟨w, hw, ho⟩
  · rw [he]
    exact h
  · rw [SubmitTransaction_ok hw ho]
    have h1 : Inv (db.createTransaction w.ID input.To input.Amount statusPending).2 :=
      h.createTransaction ⟨w, (find_key_some hw).1, rfl⟩ input.To input.Amount
    obtain ⟨o, hmem, hid, _, hres⟩ := resolveOwner_owner ho
    have ht : (⟨nextID (db.transactions.map (·.ID)), w.ID, input.To, input.Amount,
        statusPending⟩ : TransactionRow) ∈
        (db.createTransaction w.ID input.To input.Amount statusPending).2.transactions :=
      List.mem_append_right _ (List.mem_singleton_self _)
    refine h1.createApproval ht ⟨o, hmem, hid, hres⟩ ?_
    have : (db.createTransaction w.ID input.To input.Amount statusPending).2.approvalsOf
        (nextID (db.transactions.map (·.ID))) = [] := approvalsOf_nextID h.toConsistent
    rw [this]
    simp

theorem Inv.ApproveTransaction {db : DB} (h : Inv db) (input : ApproveTransactionInput) :
    Inv (ApproveTransaction db input).2 := by
  rcases ApproveTransaction_cases db input with ⟨e, he⟩ | ⟨r, w, hr, hp, hw, ho, hd⟩
  · rw [he]
    exact h
  · have hrm : r ∈ db.transactions := (find_key_some hr).1
    have hwm : w ∈ db.wallets := (find_key_some hw).1
    have hwid : w.ID = r.WalletID := (find_key_some hw).2
    obtain ⟨o, hmem, hid, _, hres⟩ := resolveOwner_owner ho
    have hnew : (resolveOwner (db.ownersOf w.ID) input.OwnerAddress).2 ∉
        (db.approvalsOf r.ID).map (·.OwnerID) := by
      intro hc
      rw [← alreadyApproved_true, hd] at hc
      cases hc
    rw [hwid] at hmem hres
    have h1 : Inv (db.createApproval r.ID
        (resolveOwner (db.ownersOf w.ID) input.OwnerAddress).2) :=
      h.createApproval hrm ⟨o, hmem, hid, hres⟩ hnew
    rw [ApproveTransaction_ok hr hp hw ho hd]
    split
    · rename_i hth
      refine h1.saveTransaction hrm _ rfl rfl rfl ?_
      intro w2 hw2 hw2id
      have he : w2 = w :=
        List.inj_on_of_nodup_map h.walletIDs hw2 hwm (hw2id.trans hwid.symm)
      rw [he, approvalsOf_createApproval]
      simpa using hth
    · exact h1

theorem Inv.run {db : DB} (h : Inv db) (c : Call) : Inv (c.run db) := by
  cases c with
  | createWallet input => exact h.CreateWallet input
  | submitTransaction input => exact h.SubmitTransaction input
  | approveTransaction input => exact h.ApproveTransaction input

/-- Every state reachable from the empty store satisfies the invariant. -/
theorem Reachable.inv {db : DB} (h : Reachable db) : Inv db := by
  induction h with
  | empty => exact Inv.init
  | step db c _ ih => exact ih.run c

theorem reachable_foldl (calls : List Call) {db : DB} (h : Reachable db) :
    Reachable (calls.foldl Call.run db) := by
  induction calls generalizing db with
  | nil => exact h
  | cons c rest ih => exact ih (Reachable.step db c h)

/-- The store after any sequence of calls is reachable. -/
theorem reachable_runCalls (calls : List Call) : Reachable (runCalls calls) :=
  reachable_foldl calls Reachable.empty

/-! ## Reads after a write -/

theorem firstTransaction_congr {db1 db2 : DB} (ht : db1.transactions = db2.transactions)
    (ha : db1.approvals = db2.approvals) (id : Nat) :
    db1.firstTransaction id = db2.firstTransaction id := by
  simp [DB.firstTransaction, DB.approvalsOf, ht, ha]

/-- A primary-key lookup in the transactions table after `Save`. -/
theorem find_saveTransaction (db : DB) (t : Transaction) (id : Nat) :
    (db.saveTransaction t).transactions.find? (fun x => decide (x.ID = id)) =
      (db.transactions.find? (fun x => decide (x.ID = id))).map (fun r =>
        if r.ID = t.ID then ⟨t.ID, t.WalletID, t.To, t.Amount, t.Status⟩ else r) := by
  simp only [DB.saveTransaction]
  induction db.transactions with
  | nil => rfl
  | cons x xs ih =>
    by_cases hx : x.ID = id
    · subst hx
      by_cases hxt : x.ID = t.ID
      · simp [List.find?_cons, hxt]
      · simp [List.find?_cons, hxt]
    · by_cases hxt : x.ID = t.ID
      · have : ¬ t.ID = id := hxt ▸ hx
        simp [List.find?_cons, hx, hxt, this, ih]
      · simp [List.find?_cons, hx, hxt, ih]

/-- What a preloading read of a transaction returns, in terms of the stored row. -/
theorem firstTransaction_eq_some {db : DB} {id : Nat} {t : Transaction}
    (h : db.firstTransaction id = some t) :
    ∃ r, db.transactions.find? (fun x => decide (x.ID = id)) = some r ∧
      t = ⟨r.ID, r.WalletID, r.To, r.Amount, r.Status, db.approvalsOf r.ID⟩ := by
  unfold DB.firstTransaction at h
  cases hr : db.transactions.find? (fun x => decide (x.ID = id)) with
  | none => rw [hr] at h; cases h
  | some r =>
    rw [hr] at h
    simp only [Option.some.injEq] at h
    exact ⟨r, rfl, h.symm⟩

/-- What a preloading read of a wallet returns, in terms of the stored row. -/
theorem firstWallet_eq_some {db : DB} {id : Nat} {w : MultiSigWallet}
    (h : db.firstWallet id = some w) :
    ∃ r, db.wallets.find? (fun x => decide (x.ID = id)) = some r ∧
      w = ⟨r.ID, r.Name, db.ownersOf r.ID, r.Threshold, []⟩ := by
  unfold DB.firstWallet at h
  cases hr : db.wallets.find? (fun x => decide (x.ID = id)) with
  | none => rw [hr] at h; cases h
  | some r =>
    rw [hr] at h
    simp only [Option.some.injEq] at h
    exact ⟨r, rfl, h.symm⟩

theorem firstTransaction_createApproval_ne (db : DB) {tid id : Nat} (oid : Nat)
    (hne : tid ≠ id) :
    (db.createApproval tid oid).firstTransaction id = db.firstTransaction id := by
  unfold DB.firstTransaction
  have ht : (db.createApproval tid oid).transactions = db.transactions := rfl
  rw [ht]
  cases hr : db.transactions.find? (fun x => decide (x.ID = id)) with
  | none => rfl
  | some r =>
    have hrid : r.ID = id := (find_key_some hr).2
    have : ¬ tid = r.ID := fun e => hne (e.trans hrid)
    simp [approvalsOf_createApproval, this]

theorem firstTransaction_createTransaction (db : DB) {id : Nat} {t : Transaction}
    (h : db.firstTransaction id = some t) (wid : Nat) (dest : String) (amount : Nat)
    (status : String) :
    (db.createTransaction wid dest amount status).2.firstTransaction id = some t := by
  obtain ⟨r, hr, rfl⟩ := firstTransaction_eq_some h
  have hf : (db.createTransaction wid dest amount status).2.transactions.find?
      (fun x => decide (x.ID = id)) = some r := find_append_some hr
  unfold DB.firstTransaction
  rw [hf]
  rfl

theorem firstTransaction_saveTransaction_ne (db : DB) (t0 : Transaction) {id : Nat}
    (hne : t0.ID ≠ id) :
    (db.saveTransaction t0).firstTransaction id = db.firstTransaction id := by
  unfold DB.firstTransaction
  rw [find_saveTransaction]
  cases hr : db.transactions.find? (fun x => decide (x.ID = id)) with
  | none => rfl
  | some r =>
    have hrid : r.ID = id := (find_key_some hr).2
    have : ¬ r.ID = t0.ID := fun e => hne (e.symm.trans hrid)
    simp only [Option.map_some', this, if_false]
    rfl

theorem CreateWallet_transactions (db : DB) (input : CreateWalletInput) :
    (CreateWallet db input).2.transactions = db.transactions := by
  by_cases hg : (input.Owners.length : Int) < uintToInt input.Threshold
  · rw [CreateWallet_rejected db input hg]
  · rw [CreateWallet_ok db input hg]
    simp only [createOwners_transactions]
    rfl

theorem CreateWallet_approvals (db : DB) (input : CreateWalletInput) :
    (CreateWallet db input).2.approvals = db.approvals := by
  by_cases hg : (input.Owners.length : Int) < uintToInt input.Threshold
  · rw [CreateWallet_rejected db input hg]
  · rw [CreateWallet_ok db input hg]
    simp only [createOwners_approvals]
    rfl

/-! ## The claims -/

/-- C1: the claimed equivalence "ready to execute if and only if the approval count has
reached the threshold" fails in a reachable state.  After the only owner of a 1-of-1
wallet submits a transaction, the transaction holds one approval, which meets the
threshold 1 of its wallet, yet its stored status is still pending:
`SubmitTransaction` records the approval of the submitter without evaluating the
threshold, which only `ApproveTransaction` does. -/
theorem submit_meets_threshold_but_pending :
    Reachable (runCalls soloRun) ∧
    (runCalls soloRun).firstWallet 1 =
      some ⟨1, "Solo", [⟨1, 1, "0xOwner1"⟩], 1, []⟩ ∧
    (runCalls soloRun).firstTransaction 1 =
      some ⟨1, 1, "0xRecipient", 100, "pending", [⟨1, 1, 1⟩]⟩ ∧
    ¬ (∀ (id : Nat) (t : Transaction) (w : MultiSigWallet),
        (runCalls soloRun).firstTransaction id = some t →
        (runCalls soloRun).firstWallet t.WalletID = some w →
        (t.Status = statusReady ↔ w.Threshold ≤ t.Approvals.length)) := by
  refine ⟨reachable_runCalls soloRun, rfl, rfl, ?_⟩
  intro h
  have h1 := h 1 ⟨1, 1, "0xRecipient", 100, "pending", [⟨1, 1, 1⟩]⟩
    ⟨1, "Solo", [⟨1, 1, "0xOwner1"⟩], 1, []⟩ rfl rfl
  exact absurd (h1.mpr (by decide)) (by decide)

/-- C3: the guard of `CreateWallet` compares `len(input.Owners)` with the threshold
converted to a signed `int`.  A threshold of `2 ^ 63`, a value of the unsigned type,
converts to a negative number, so the guard passes and a wallet with two owners and
threshold `2 ^ 63` is created and stored. -/
theorem CreateWallet_accepts_huge_threshold :
    2 ^ 63 < 2 ^ uintBits ∧
    (["0xOwner1", "0xOwner2"] : List String).length < 2 ^ 63 ∧
    uintToInt (2 ^ 63) = -9223372036854775808 ∧
    CreateWallet DB.empty ⟨"Test Wallet Invalid", ["0xOwner1", "0xOwner2"], 2 ^ 63⟩ =
      (.ok ⟨1, "Test Wallet Invalid", [⟨1, 1, "0xOwner1"⟩, ⟨2, 1, "0xOwner2"⟩], 2 ^ 63, []⟩,
       ⟨[⟨1, "Test Wallet Invalid", 2 ^ 63⟩], [⟨1, 1, "0xOwner1"⟩, ⟨2, 1, "0xOwner2"⟩],
        [], []⟩) :=
  ⟨by decide, by decide, by decide, rfl⟩

/-- For thresholds below `2 ^ 63`, where the conversion to `int` is exact, the guard of
`CreateWallet` does reject every threshold above the number of owners, leaving the
store untouched. -/
theorem CreateWallet_rejects_small_threshold (db : DB) (input : CreateWalletInput)
    (hsmall : input.Threshold < 2 ^ 63) (hgt : input.Owners.length < input.Threshold) :
    CreateWallet db input = (.error .invalidThreshold, db) := by
  apply CreateWallet_rejected
  have h64 : input.Threshold % 2 ^ 64 = input.Threshold :=
    Nat.mod_eq_of_lt (lt_trans hsmall (by norm_num))
  have : uintToInt input.Threshold = (input.Threshold : Int) := by
    simp only [uintToInt, uintBits, h64]
    rw [if_pos (by simpa using hsmall)]
  rw [this]
  exact_mod_cast hgt

/-- C4: whenever the transaction named by the input exists and its status is not
pending, `ApproveTransaction` fails with the error "only pending transactions can be
approved", whatever the owner address, and returns the store exactly as it was. -/
theorem ApproveTransaction_rejects_non_pending (db : DB) (input : ApproveTransactionInput)
    (t : Transaction) (ht : db.firstTransaction input.TransactionID = some t)
    (hs : t.Status ≠ statusPending) :
    ApproveTransaction db input = (.error .notPending, db) ∧
    ServiceError.notPending.Error = "only pending transactions can be approved" := by
  obtain ⟨r, hr, rfl⟩ := firstTransaction_eq_some ht
  exact ⟨ApproveTransaction_notPending hr hs, rfl⟩

/-- Witness for C4: owners A, B, C with threshold 2; A submits, B approves, and the
approval of C is then rejected as not pending. -/
theorem ApproveTransaction_rejects_non_pending_witness :
    (runCalls quorumRun).firstTransaction 1 =
      some ⟨1, 1, "0xRecipient", 100, "ready_to_execute", [⟨1, 1, 1⟩, ⟨2, 1, 2⟩]⟩ ∧
    ApproveTransaction (runCalls quorumRun) ⟨1, "0xOwner3"⟩ =
      (.error .notPending, runCalls quorumRun) :=
  ⟨rfl, (ApproveTransaction_rejects_non_pending (runCalls quorumRun) ⟨1, "0xOwner3"⟩
    ⟨1, 1, "0xRecipient", 100, "ready_to_execute", [⟨1, 1, 1⟩, ⟨2, 1, 2⟩]⟩ rfl
    (by decide)).1⟩

/-- C8: status is monotonic.  For every store and every single call of the service,
successful or failing, a transaction that reads as ready to execute before the call
reads exactly the same after it: same status, and also the same fields and approvals. -/
theorem ready_stays_ready (db : DB) (c : Call) (id : Nat) (t : Transaction)
    (ht : db.firstTransaction id = some t) (hs : t.Status = statusReady) :
    (c.run db).firstTransaction id = some t ∧
    ∀ t2, (c.run db).firstTransaction id = some t2 → t2.Status = statusReady := by
  have key : (c.run db).firstTransaction id = some t := by
    cases c with
    | createWallet input =>
      rw [← ht]
      exact firstTransaction_congr (CreateWallet_transactions db input)
        (CreateWallet_approvals db input) id
    | submitTransaction input =>
      rcases SubmitTransaction_cases db input with ⟨e, he⟩ | ⟨w, hw, ho⟩
      · simp only [Call.run, he]
        exact ht
      · simp only [Call.run, SubmitTransaction_ok hw ho]
        obtain ⟨r, hr, _⟩ := firstTransaction_eq_some ht
        have hne : nextID (db.transactions.map (·.ID)) ≠ id := by
          intro he
          have hm : r.ID ∈ db.transactions.map (·.ID) :=
            List.mem_map_of_mem _ (find_key_some hr).1
          rw [(find_key_some hr).2, ← he] at hm
          exact nextID_not_mem _ hm
        rw [firstTransaction_createApproval_ne _ _ hne]
        exact firstTransaction_createTransaction db ht _ _ _ _
    | approveTransaction input =>
      rcases ApproveTransaction_cases db input with ⟨e, he⟩ | ⟨r, w, hr, hp, hw, ho, hd⟩
      · simp only [Call.run, he]
        exact ht
      · have hne : r.ID ≠ id := by
          intro he
          obtain ⟨r2, hr2, ht2⟩ := firstTransaction_eq_some ht
          rw [← he, (find_key_some hr).2, hr] at hr2
          simp only [Option.some.injEq] at hr2
          subst hr2
          rw [ht2] at hs
          exact statusReady_ne_pending (hs.symm.trans hp)
        simp only [Call.run, ApproveTransaction_ok hr hp hw ho hd]
        split
        · rw [firstTransaction_saveTransaction_ne _ _ hne,
            firstTransaction_createApproval_ne _ _ hne]
          exact ht
        · rw [firstTransaction_createApproval_ne _ _ hne]
          exact ht
  refine ⟨key, ?_⟩
  intro t2 h2
  rw [key] at h2
  simp only [Option.some.injEq] at h2
  rw [← h2]
  exact hs

/-- Witness for C8: in the 2-of-3 run the transaction is ready to execute, and it still
is after a further approval attempt by the third owner. -/
theorem ready_stays_ready_witness :
    (runCalls quorumRun).firstTransaction 1 =
      some ⟨1, 1, "0xRecipient", 100, "ready_to_execute", [⟨1, 1, 1⟩, ⟨2, 1, 2⟩]⟩ ∧
    ((Call.approveTransaction ⟨1, "0xOwner3"⟩).run (runCalls quorumRun)).firstTransaction 1 =
      some ⟨1, 1, "0xRecipient", 100, "ready_to_execute", [⟨1, 1, 1⟩, ⟨2, 1, 2⟩]⟩ :=
  ⟨rfl, (ready_stays_ready (runCalls quorumRun) (.approveTransaction ⟨1, "0xOwner3"⟩) 1
    ⟨1, 1, "0xRecipient", 100, "ready_to_execute", [⟨1, 1, 1⟩, ⟨2, 1, 2⟩]⟩ rfl rfl).1⟩

/-- C10: `SubmitTransaction` fails with the wallet-not-found error exactly when no
stored wallet has the given identity, and with "only wallet owners can submit
transactions" exactly when such a wallet exists but no owner of it has the address
`From`; whenever it fails the store is returned unchanged, so no transaction and no
approval is created. -/
theorem SubmitTransaction_failures (db : DB) (input : SubmitTransactionInput) :
    ((SubmitTransaction db input).1 = .error .walletNotFound ↔
      ∀ w ∈ db.wallets, w.ID ≠ input.WalletID) ∧
    ((SubmitTransaction db input).1 = .error .notOwnerSubmit ↔
      (∃ w ∈ db.wallets, w.ID = input.WalletID) ∧
        ∀ o ∈ db.owners, o.WalletID = input.WalletID → o.Address ≠ input.From) ∧
    (∀ e, (SubmitTransaction db input).1 = .error e →
      SubmitTransaction db input = (.error e, db)) ∧
    ServiceError.notOwnerSubmit.Error = "only wallet owners can submit transactions" := by
  have hown : ∀ w : WalletRow, w.ID = input.WalletID →
      ((resolveOwner (db.ownersOf w.ID) input.From).1 = false ↔
        ∀ o ∈ db.owners, o.WalletID = input.WalletID → o.Address ≠ input.From) := by
    intro w hw
    rw [resolveOwner_false, hw]
    constructor
    · intro h o ho hwo
      exact h o (mem_ownersOf.mpr ⟨ho, hwo⟩)
    · intro h o ho
      exact h o (mem_ownersOf.mp ho).1 (mem_ownersOf.mp ho).2
  cases hw : db.wallets.find? (fun x => decide (x.ID = input.WalletID)) with
  | none =>
    have hres : SubmitTransaction db input = (.error .walletNotFound, db) := by
      simp [SubmitTransaction, DB.firstWallet, hw]
    have hno := find_key_none.mp hw
    refine ⟨?_, ?_, ?_, rfl⟩
    · rw [hres]
      exact ⟨fun _ => hno, fun _ => rfl⟩
    · rw [hres]
      constructor
      · intro h
        cases h
      · rintro ⟨⟨w, hwm, hwid⟩, _⟩
        exact absurd hwid (hno w hwm)
    · intro e he
      rw [hres] at he ⊢
      cases he
      rfl
  | some w =>
    have hwm := (find_key_some hw).1
    have hwid := (find_key_some hw).2
    have hex : ¬ ∀ x ∈ db.wallets, x.ID ≠ input.WalletID := fun h => h w hwm hwid
    cases ho : (resolveOwner (db.ownersOf w.ID) input.From).1 with
    | false =>
      have hres : SubmitTransaction db input = (.error .notOwnerSubmit, db) := by
        simp [SubmitTransaction, DB.firstWallet, hw, ho]
      refine ⟨?_, ?_, ?_, rfl⟩
      · rw [hres]
        constructor
        · intro h
          cases h
        · intro h
          exact absurd h hex
      · rw [hres]
        exact ⟨fun _ => ⟨⟨w, hwm, hwid⟩, (hown w hwid).mp ho⟩, fun _ => rfl⟩
      · intro e he
        rw [hres] at he ⊢
        cases he
        rfl
    | true =>
      have hres := SubmitTransaction_ok hw ho
      refine ⟨?_, ?_, ?_, rfl⟩
      · rw [hres]
        constructor
        · intro h
          cases h
        · intro h
          exact absurd h hex
      · rw [hres]
        constructor
        · intro h
          cases h
        · rintro ⟨_, h⟩
          have := (hown w hwid).mpr h
          rw [ho] at this
          cases this
      · intro e he
        rw [hres] at he
        cases he

/-- In a store with integrity, the wallet of a stored transaction is found by the
preloading read. -/
theorem wallet_of_transaction {db : DB} (hc : Consistent db) {r : TransactionRow}
    (hr : r ∈ db.transactions) :
    ∃ w, w ∈ db.wallets ∧ w.ID = r.WalletID ∧
      db.wallets.find? (fun x => decide (x.ID = r.WalletID)) = some w := by
  obtain ⟨w, hw, hwid⟩ := hc.transactionWallet r hr
  refine ⟨w, hw, hwid, ?_⟩
  rw [← hwid]
  exact find_key_of_mem hc.walletIDs hw

/-- In a store with integrity every stored transaction row is the one read back by its
identity, together with its stored approvals. -/
theorem stored_transaction_read {db : DB} (hc : Consistent db) {r : TransactionRow}
    (hr : r ∈ db.transactions) :
    db.firstTransaction r.ID =
      some ⟨r.ID, r.WalletID, r.To, r.Amount, r.Status, db.approvalsOf r.ID⟩ := by
  unfold DB.firstTransaction
  rw [find_key_of_mem hc.transactionIDs hr]

/-- C2: no transaction is authorised without quorum.  In every reachable state, a
transaction that reads as ready to execute belongs to a stored wallet, holds at least
as many approvals as the threshold of that wallet, and its approvals are by pairwise
distinct owners, each of them an owner of that wallet. -/
theorem ready_has_quorum (db : DB) (h : Reachable db) (id : Nat) (t : Transaction)
    (ht : db.firstTransaction id = some t) (hs : t.Status = statusReady) :
    ∃ w, db.firstWallet t.WalletID = some w ∧
      w.Threshold ≤ t.Approvals.length ∧
      (t.Approvals.map (·.OwnerID)).Nodup ∧
      ∀ a ∈ t.Approvals, ∃ o ∈ w.Owners, o.ID = a.OwnerID := by
  have inv := h.inv
  obtain ⟨r, hr, rfl⟩ := firstTransaction_eq_some ht
  have hrm := (find_key_some hr).1
  obtain ⟨w, hw, hwid, hfind⟩ := wallet_of_transaction inv.toConsistent hrm
  refine ⟨⟨w.ID, w.Name, db.ownersOf w.ID, w.Threshold, []⟩, ?_, ?_, ?_, ?_⟩
  · simp [DB.firstWallet, hfind]
  · exact inv.quorum r hrm hs w hw hwid
  · exact inv.approvalDistinct r.ID
  · intro a ha
    obtain ⟨ham, hat⟩ := mem_approvalsOf.mp ha
    obtain ⟨o, ho, hoa, _⟩ := inv.approvalOwner a ham r hrm hat.symm
    rw [← hwid] at ho
    exact ⟨o, ho, hoa⟩

/-- Witness for C2: the transaction of the 2-of-3 run is ready to execute with the two
approvals of owners 1 and 2. -/
theorem ready_has_quorum_witness :
    Reachable (runCalls quorumRun) ∧
    (runCalls quorumRun).firstTransaction 1 =
      some ⟨1, 1, "0xRecipient", 100, "ready_to_execute", [⟨1, 1, 1⟩, ⟨2, 1, 2⟩]⟩ ∧
    ∃ w, (runCalls quorumRun).firstWallet 1 = some w ∧
      w.Threshold ≤ ([⟨1, 1, 1⟩, ⟨2, 1, 2⟩] : List Approval).length ∧
      (([⟨1, 1, 1⟩, ⟨2, 1, 2⟩] : List Approval).map (·.OwnerID)).Nodup ∧
      ∀ a ∈ ([⟨1, 1, 1⟩, ⟨2, 1, 2⟩] : List Approval), ∃ o ∈ w.Owners, o.ID = a.OwnerID :=
  ⟨reachable_runCalls quorumRun, rfl,
    ready_has_quorum (runCalls quorumRun) (reachable_runCalls quorumRun) 1
      ⟨1, 1, "0xRecipient", 100, "ready_to_execute", [⟨1, 1, 1⟩, ⟨2, 1, 2⟩]⟩ rfl rfl⟩

/-- C6: at most one approval per transaction and owner.  In every reachable state the
approvals stored for any one transaction have pairwise distinct owner identities; two
stored approvals with the same transaction and the same owner are the same row. -/
theorem one_approval_per_owner (db : DB) (h : Reachable db) :
    (∀ tid, ((db.approvalsOf tid).map (·.OwnerID)).Nodup) ∧
    ∀ a ∈ db.approvals, ∀ b ∈ db.approvals,
      a.TransactionID = b.TransactionID → a.OwnerID = b.OwnerID → a = b := by
  have inv := h.inv
  refine ⟨inv.approvalDistinct, ?_⟩
  intro a ha b hb htx hown
  exact List.inj_on_of_nodup_map (inv.approvalDistinct b.TransactionID)
    (mem_approvalsOf.mpr ⟨ha, htx⟩) (mem_approvalsOf.mpr ⟨hb, rfl⟩) hown

/-- Witness for C6: the approvals of transaction 1 in the 3-of-3 run. -/
theorem one_approval_per_owner_witness :
    Reachable (runCalls pendingRun) ∧
    (runCalls pendingRun).approvalsOf 1 = [⟨1, 1, 1⟩, ⟨2, 1, 2⟩] ∧
    (((runCalls pendingRun).approvalsOf 1).map (·.OwnerID)).Nodup :=
  ⟨reachable_runCalls pendingRun, rfl,
    (one_approval_per_owner (runCalls pendingRun) (reachable_runCalls pendingRun)).1 1⟩

/-- C5, as the code has it: in every reachable state, for a stored transaction and an
owner who already has an approval on it, a further `ApproveTransaction` call with that
owner's address fails and returns the store unchanged (so the approval count is
unchanged).  The error is "transaction already approved by this owner" while the
transaction is pending, and "only pending transactions can be approved" once it is
not, because the status is checked first. -/
theorem repeated_approval_rejected (db : DB) (h : Reachable db) (id : Nat)
    (t : Transaction) (ht : db.firstTransaction id = some t)
    (a : Approval) (ha : a ∈ t.Approvals)
    (o : Owner) (ho : o ∈ db.owners) (hoa : o.ID = a.OwnerID) :
    ApproveTransaction db ⟨id, o.Address⟩ =
      (.error (if t.Status = statusPending then .duplicateApproval else .notPending), db) ∧
    ServiceError.duplicateApproval.Error = "transaction already approved by this owner" := by
  refine ⟨?_, rfl⟩
  have inv := h.inv
  obtain ⟨r, hr, rfl⟩ := firstTransaction_eq_some ht
  have hrm := (find_key_some hr).1
  by_cases hp : r.Status = statusPending
  · simp only [hp, if_true]
    obtain ⟨w, hw, hwid, hfind⟩ := wallet_of_transaction inv.toConsistent hrm
    obtain ⟨ham, hat⟩ := mem_approvalsOf.mp ha
    obtain ⟨o2, ho2, ho2a, hres⟩ := inv.approvalOwner a ham r hrm hat.symm
    have he : o2 = o := List.inj_on_of_nodup_map inv.ownerIDs (mem_ownersOf.mp ho2).1 ho
      (ho2a.trans hoa.symm)
    subst he
    rw [← hwid] at hres
    refine ApproveTransaction_duplicate hr hp hfind (by rw [hres]) ?_
    rw [alreadyApproved_true, hres]
    exact List.mem_map.mpr ⟨a, ha, ho2a.symm⟩
  · simp only [hp, if_false]
    exact ApproveTransaction_notPending hr hp

/-- Witness for C5 as amended: in the 3-of-3 run the transaction is pending and owner 2
has approved; a second approval by owner 2 is rejected as a duplicate. -/
theorem repeated_approval_rejected_witness :
    Reachable (runCalls pendingRun) ∧
    (runCalls pendingRun).firstTransaction 1 =
      some ⟨1, 1, "0xRecipient", 100, "pending", [⟨1, 1, 1⟩, ⟨2, 1, 2⟩]⟩ ∧
    ApproveTransaction (runCalls pendingRun) ⟨1, "0xOwner2"⟩ =
      (.error .duplicateApproval, runCalls pendingRun) :=
  ⟨reachable_runCalls pendingRun, rfl,
    (repeated_approval_rejected (runCalls pendingRun) (reachable_runCalls pendingRun) 1
      ⟨1, 1, "0xRecipient", 100, "pending", [⟨1, 1, 1⟩, ⟨2, 1, 2⟩]⟩ rfl
      ⟨2, 1, 2⟩ (by decide) ⟨2, 1, "0xOwner2"⟩ (by decide) rfl).1⟩

/-- Counterexample to C5 as stated: in the 2-of-3 run owner 2 has an approval on
transaction 1, which is ready to execute; a further approval call with the address of
owner 2 fails with "only pending transactions can be approved", not with the
duplicate-approval error. -/
theorem repeated_approval_not_duplicate_error :
    Reachable (runCalls quorumRun) ∧
    (⟨2, 1, "0xOwner2"⟩ : Owner) ∈ (runCalls quorumRun).owners ∧
    (⟨2, 1, 2⟩ : Approval) ∈ (runCalls quorumRun).approvalsOf 1 ∧
    ApproveTransaction (runCalls quorumRun) ⟨1, "0xOwner2"⟩ =
      (.error .notPending, runCalls quorumRun) ∧
    (ApproveTransaction (runCalls quorumRun) ⟨1, "0xOwner2"⟩).1 ≠
      .error .duplicateApproval := by
  refine ⟨reachable_runCalls quorumRun, by decide, by decide, rfl, ?_⟩
  intro h
  have h2 : (ApproveTransaction (runCalls quorumRun) ⟨1, "0xOwner2"⟩).1 =
      .error .notPending := rfl
  rw [h2] at h
  cases h

/-- The owner-lookup loop returns the first owner of the list with the address. -/
theorem resolveOwner_eq_find (l : List Owner) (address : String) :
    resolveOwner l address =
      match l.find? (fun o => decide (o.Address = address)) with
      | some o => (true, o.ID)
      | none => (false, 0) := by
  induction l with
  | nil => rfl
  | cons o rest ih =>
    by_cases h : o.Address = address
    · simp [resolveOwner, List.find?_cons, h]
    · simp [resolveOwner, List.find?_cons, h, ih]

/-- C7: whenever the transaction exists and is pending, its wallet exists, the address
resolves to an owner of that wallet and that owner has not approved yet,
`ApproveTransaction` succeeds.  Exactly one approval row, for that transaction and
that owner, is appended to the approvals table; the returned transaction carries the
old approvals followed by the new one; its status is ready to execute if the new count
reaches the threshold of the wallet and pending otherwise, and the stored transaction
reads back as the returned one.  Wallets and owners are untouched and in the
transactions table only the status of this transaction can change. -/
theorem ApproveTransaction_success (db : DB) (hc : Consistent db)
    (input : ApproveTransactionInput) (t : Transaction) (w : MultiSigWallet) (oid : Nat)
    (ht : db.firstTransaction input.TransactionID = some t)
    (hp : t.Status = statusPending)
    (hw : db.firstWallet t.WalletID = some w)
    (ho : resolveOwner w.Owners input.OwnerAddress = (true, oid))
    (hd : oid ∉ t.Approvals.map (·.OwnerID)) :
    ∃ (a : Approval) (status : String) (db2 : DB),
      a.TransactionID = t.ID ∧ a.OwnerID = oid ∧
      (∃ o ∈ w.Owners, o.ID = oid ∧ o.Address = input.OwnerAddress) ∧
      status = (if w.Threshold ≤ t.Approvals.length + 1 then statusReady
        else statusPending) ∧
      ApproveTransaction db input =
        (.ok { t with Status := status, Approvals := t.Approvals ++ [a] }, db2) ∧
      db2.approvals = db.approvals ++ [a] ∧
      db2.approvalsOf t.ID = t.Approvals ++ [a] ∧
      db2.wallets = db.wallets ∧
      db2.owners = db.owners ∧
      db2.transactions = db.transactions.map (fun x =>
        if x.ID = t.ID then { x with Status := status } else x) ∧
      db2.firstTransaction input.TransactionID =
        some { t with Status := status, Approvals := t.Approvals ++ [a] } := by
  obtain ⟨r, hr, rfl⟩ := firstTransaction_eq_some ht
  obtain ⟨wr, hwr, rfl⟩ := firstWallet_eq_some hw
  simp only at hp hwr ho hd ⊢
  have hrm := (find_key_some hr).1
  have hrid : r.ID = input.TransactionID := (find_key_some hr).2
  have ho1 : (resolveOwner (db.ownersOf wr.ID) input.OwnerAddress).1 = true := by rw [ho]
  have ho2 : (resolveOwner (db.ownersOf wr.ID) input.OwnerAddress).2 = oid := by rw [ho]
  have hd1 : alreadyApproved (db.approvalsOf r.ID)
      (resolveOwner (db.ownersOf wr.ID) input.OwnerAddress).2 = false := by
    rw [ho2]
    cases hb : alreadyApproved (db.approvalsOf r.ID) oid with
    | false => rfl
    | true => exact absurd (alreadyApproved_true.mp hb) hd
  have hres := ApproveTransaction_ok hr hp hwr ho1 hd1
  rw [ho2] at hres
  have hsame : ∀ x ∈ db.transactions, x.ID = r.ID → x = r := fun x hx he =>
    List.inj_on_of_nodup_map hc.transactionIDs hx hrm he
  have hown : ∃ o ∈ db.ownersOf wr.ID, o.ID = oid ∧ o.Address = input.OwnerAddress := by
    obtain ⟨o, hom, hoa, hoid⟩ := resolveOwner_true ho1
    exact ⟨o, hom, (hoid.symm.trans ho2), hoa⟩
  have happ : (db.createApproval r.ID oid).approvalsOf r.ID =
      db.approvalsOf r.ID ++ [⟨nextID (db.approvals.map (·.ID)), r.ID, oid⟩] := by
    simp [approvalsOf_createApproval]
  by_cases hth : wr.Threshold ≤ (db.approvalsOf r.ID).length + 1
  · rw [if_pos hth] at hres
    refine ⟨(⟨nextID (db.approvals.map (fun (x : Approval) => x.ID)), r.ID, oid⟩ : Approval),
      statusReady, (db.createApproval r.ID oid).saveTransaction
        ⟨r.ID, r.WalletID, r.To, r.Amount, statusReady,
          db.approvalsOf r.ID ++ [⟨nextID (db.approvals.map (·.ID)), r.ID, oid⟩]⟩,
      rfl, rfl, hown, by rw [if_pos hth], hres, rfl, happ, rfl, rfl, ?_, ?_⟩
    · simp only [DB.saveTransaction]
      apply List.map_congr_left
      intro x hx
      by_cases hx2 : x.ID = r.ID
      · rw [hsame x hx hx2]
      · simp [hx2]
    · unfold DB.firstTransaction
      rw [find_saveTransaction]
      have hf : (db.createApproval r.ID oid).transactions.find?
          (fun x => decide (x.ID = input.TransactionID)) = some r := hr
      rw [hf]
      simp only [Option.map_some', if_true]
      exact congrArg some (congrArg _ happ)
  · rw [if_neg hth] at hres
    refine ⟨(⟨nextID (db.approvals.map (fun (x : Approval) => x.ID)), r.ID, oid⟩ : Approval),
      statusPending, db.createApproval r.ID oid,
      rfl, rfl, hown, by rw [if_neg hth], ?_, rfl, happ, rfl, rfl, ?_, ?_⟩
    · rw [hres, hp]
    · have : db.transactions.map (fun x =>
          if x.ID = r.ID then { x with Status := statusPending } else x) =
          db.transactions.map id := by
        apply List.map_congr_left
        intro x hx
        by_cases hx2 : x.ID = r.ID
        · rw [hsame x hx hx2]
          simp only [if_true, id]
          rw [← hp]
        · simp [hx2]
      rw [this, List.map_id]
      rfl
    · unfold DB.firstTransaction
      have hf : (db.createApproval r.ID oid).transactions.find?
          (fun x => decide (x.ID = input.TransactionID)) = some r := hr
      rw [hf]
      simp only [happ, hp]

/-- Witness for C7: in the 3-of-3 run (pending, two approvals) the third owner
approves; the transaction comes back ready to execute with three approvals. -/
theorem ApproveTransaction_success_witness :
    Consistent (runCalls pendingRun) ∧
    ∃ (a : Approval) (db2 : DB),
      a.TransactionID = 1 ∧ a.OwnerID = 3 ∧
      ApproveTransaction (runCalls pendingRun) ⟨1, "0xOwner3"⟩ =
        (.ok ⟨1, 1, "0xRecipient", 100, "ready_to_execute", [⟨1, 1, 1⟩, ⟨2, 1, 2⟩, a]⟩,
          db2) ∧
      db2.approvals = (runCalls pendingRun).approvals ++ [a] := by
  refine ⟨(reachable_runCalls pendingRun).inv.toConsistent, ?_⟩
  obtain ⟨a, status, db2, h1, h2, _, h4, h5, h6, _⟩ :=
    ApproveTransaction_success (runCalls pendingRun)
      (reachable_runCalls pendingRun).inv.toConsistent ⟨1, "0xOwner3"⟩
      ⟨1, 1, "0xRecipient", 100, "pending", [⟨1, 1, 1⟩, ⟨2, 1, 2⟩]⟩
      ⟨1, "Test Wallet", [⟨1, 1, "0xOwner1"⟩, ⟨2, 1, "0xOwner2"⟩, ⟨3, 1, "0xOwner3"⟩], 3, []⟩
      3 rfl rfl rfl rfl (by decide)
  have hst : status = "ready_to_execute" := by rw [h4]; rfl
  subst hst
  exact ⟨a, db2, h1, h2, h5, h6⟩

/-- C9: whenever the wallet exists and `From` is the address of one of its owners,
`SubmitTransaction` succeeds.  It appends one transaction row with a fresh identity,
that wallet, the given destination and amount and status pending, and one approval
row on that transaction credited to the first owner of the wallet whose address is
`From`; nothing else is written, and the new transaction reads back with exactly this
one approval. -/
theorem SubmitTransaction_success (db : DB) (hc : Consistent db)
    (input : SubmitTransactionInput) (w : MultiSigWallet)
    (hw : db.firstWallet input.WalletID = some w)
    (hex : ∃ o ∈ w.Owners, o.Address = input.From) :
    ∃ (p : Owner) (tid aid : Nat),
      w.Owners.find? (fun o => decide (o.Address = input.From)) = some p ∧
      (∀ x ∈ db.transactions, x.ID ≠ tid) ∧
      SubmitTransaction db input =
        (.ok ⟨tid, input.WalletID, input.To, input.Amount, statusPending, []⟩,
          ⟨db.wallets, db.owners,
            db.transactions ++ [⟨tid, input.WalletID, input.To, input.Amount, statusPending⟩],
            db.approvals ++ [⟨aid, tid, p.ID⟩]⟩) ∧
      (SubmitTransaction db input).2.firstTransaction tid =
        some ⟨tid, input.WalletID, input.To, input.Amount, statusPending,
          [⟨aid, tid, p.ID⟩]⟩ := by
  obtain ⟨wr, hwr, rfl⟩ := firstWallet_eq_some hw
  simp only at hex ⊢
  have hwid : wr.ID = input.WalletID := (find_key_some hwr).2
  cases hfind : (db.ownersOf wr.ID).find? (fun o => decide (o.Address = input.From)) with
  | none =>
    obtain ⟨o, ho, hoa⟩ := hex
    have := List.find?_eq_none.mp hfind o ho
    simp [hoa] at this
  | some p =>
    have hres : resolveOwner (db.ownersOf wr.ID) input.From = (true, p.ID) := by
      rw [resolveOwner_eq_find, hfind]
    have ho1 : (resolveOwner (db.ownersOf wr.ID) input.From).1 = true := by rw [hres]
    have hsub := SubmitTransaction_ok hwr ho1
    rw [hres, hwid] at hsub
    have hfresh : ∀ x ∈ db.transactions, x.ID ≠ nextID (db.transactions.map (·.ID)) := by
      intro x hx he
      have hm : x.ID ∈ db.transactions.map (·.ID) := List.mem_map_of_mem _ hx
      rw [he] at hm
      exact nextID_not_mem _ hm
    have hnone : db.transactions.find?
        (fun x => decide (x.ID = nextID (db.transactions.map (·.ID)))) = none :=
      find_key_none.mpr hfresh
    refine ⟨p, nextID (db.transactions.map (·.ID)), nextID (db.approvals.map (·.ID)),
      rfl, hfresh, hsub, ?_⟩
    rw [hsub]
    have hold := approvalsOf_nextID hc
    unfold DB.approvalsOf at hold
    simp [DB.firstTransaction, DB.approvalsOf, DB.createTransaction, DB.createApproval,
      List.find?_append, hnone, List.filter_append, hold]

/-- Witness for C9: the first owner of the 2-of-3 test wallet submits a transaction of
100 to the recipient (`TestSubmitTransaction`). -/
theorem SubmitTransaction_success_witness :
    Consistent (runCalls [.createWallet ⟨"Test Wallet", testOwners, 2⟩]) ∧
    ∃ (p : Owner) (tid aid : Nat),
      p = ⟨1, 1, "0xOwner1"⟩ ∧
      (SubmitTransaction (runCalls [.createWallet ⟨"Test Wallet", testOwners, 2⟩])
        ⟨1, "0xOwner1", "0xRecipient", 100⟩).2.firstTransaction tid =
        some ⟨tid, 1, "0xRecipient", 100, statusPending, [⟨aid, tid, p.ID⟩]⟩ := by
  refine ⟨(reachable_runCalls _).inv.toConsistent, ?_⟩
  obtain ⟨p, tid, aid, h1, _, _, h4⟩ :=
    SubmitTransaction_success (runCalls [.createWallet ⟨"Test Wallet", testOwners, 2⟩])
      (reachable_runCalls _).inv.toConsistent ⟨1, "0xOwner1", "0xRecipient", 100⟩
      ⟨1, "Test Wallet", [⟨1, 1, "0xOwner1"⟩, ⟨2, 1, "0xOwner2"⟩, ⟨3, 1, "0xOwner3"⟩], 2, []⟩
      rfl ⟨⟨1, 1, "0xOwner1"⟩, by decide, rfl⟩
  have hp : p = ⟨1, 1, "0xOwner1"⟩ := by
    have h0 : ([⟨1, 1, "0xOwner1"⟩, ⟨2, 1, "0xOwner2"⟩, ⟨3, 1, "0xOwner3"⟩] :
        List Owner).find? (fun o => decide (o.Address = "0xOwner1")) =
        some ⟨1, 1, "0xOwner1"⟩ := rfl
    rw [h0] at h1
    exact (Option.some.inj h1).symm
  exact ⟨p, tid, aid, hp, h4⟩

/-- A preloading read of a transaction fails exactly when no row has the identity. -/
theorem firstTransaction_eq_none {db : DB} {id : Nat} (h : db.firstTransaction id = none) :
    db.transactions.find? (fun x => decide (x.ID = id)) = none := by
  unfold DB.firstTransaction at h
  cases hr : db.transactions.find? (fun x => decide (x.ID = id)) with
  | none => rfl
  | some r => rw [hr] at h; cases h

/-- A preloading read of a wallet fails exactly when no row has the identity. -/
theorem firstWallet_eq_none {db : DB} {id : Nat} (h : db.firstWallet id = none) :
    db.wallets.find? (fun x => decide (x.ID = id)) = none := by
  unfold DB.firstWallet at h
  cases hr : db.wallets.find? (fun x => decide (x.ID = id)) with
  | none => rfl
  | some r => rw [hr] at h; cases h

/-- C11: `ApproveTransaction` validates before it writes, in this order: transaction
not found if the transaction is absent; else not pending if its status is not pending;
else wallet not found if its wallet is absent; else "only wallet owners can approve
transactions" if the address is that of no owner of the wallet; else the
duplicate-approval error if the owner the address resolves to has already approved.
Each of these calls, and indeed every failing call, returns the store unchanged. -/
theorem ApproveTransaction_validation_order (db : DB) (input : ApproveTransactionInput) :
    (db.firstTransaction input.TransactionID = none →
      ApproveTransaction db input = (.error .transactionNotFound, db)) ∧
    (∀ t, db.firstTransaction input.TransactionID = some t →
      (t.Status ≠ statusPending →
        ApproveTransaction db input = (.error .notPending, db)) ∧
      (t.Status = statusPending →
        (db.firstWallet t.WalletID = none →
          ApproveTransaction db input = (.error .walletNotFound, db)) ∧
        (∀ w, db.firstWallet t.WalletID = some w →
          ((∀ o ∈ w.Owners, o.Address ≠ input.OwnerAddress) →
            ApproveTransaction db input = (.error .notOwnerApprove, db)) ∧
          (∀ p, w.Owners.find? (fun o => decide (o.Address = input.OwnerAddress)) = some p →
            p.ID ∈ t.Approvals.map (·.OwnerID) →
            ApproveTransaction db input = (.error .duplicateApproval, db))))) ∧
    (∀ e, (ApproveTransaction db input).1 = .error e →
      ApproveTransaction db input = (.error e, db)) ∧
    ServiceError.notOwnerApprove.Error = "only wallet owners can approve transactions" := by
  refine ⟨?_, ?_, ?_, rfl⟩
  · intro h
    exact ApproveTransaction_transactionNotFound (firstTransaction_eq_none h)
  · intro t ht
    obtain ⟨r, hr, rfl⟩ := firstTransaction_eq_some ht
    refine ⟨fun hs => ApproveTransaction_notPending hr hs, fun hp => ⟨?_, ?_⟩⟩
    · intro hw
      exact ApproveTransaction_walletNotFound hr hp (firstWallet_eq_none hw)
    · intro w hw
      obtain ⟨wr, hwr, rfl⟩ := firstWallet_eq_some hw
      refine ⟨?_, ?_⟩
      · intro hno
        exact ApproveTransaction_notOwner hr hp hwr (resolveOwner_false.mpr hno)
      · intro p hp1 hp2
        have hres : resolveOwner (db.ownersOf wr.ID) input.OwnerAddress = (true, p.ID) := by
          rw [resolveOwner_eq_find]
          simp only at hp1
          rw [hp1]
        refine ApproveTransaction_duplicate hr hp hwr (by rw [hres]) ?_
        rw [alreadyApproved_true, hres]
        exact hp2
  · intro e he
    rcases ApproveTransaction_cases db input with ⟨e2, he2⟩ | ⟨r, w, hr, hp, hw, ho, hd⟩
    · rw [he2] at he ⊢
      cases he
      rfl
    · rw [ApproveTransaction_ok hr hp hw ho hd] at he
      split at he <;> cases he

/-- Witness for C11: on the pending 3-of-3 transaction with two approvals, the address
"0xNonOwner" is rejected as not an owner and the approval count stays 2. -/
theorem ApproveTransaction_validation_order_witness :
    (runCalls pendingRun).firstTransaction 1 =
      some ⟨1, 1, "0xRecipient", 100, "pending", [⟨1, 1, 1⟩, ⟨2, 1, 2⟩]⟩ ∧
    ApproveTransaction (runCalls pendingRun) ⟨1, "0xNonOwner"⟩ =
      (.error .notOwnerApprove, runCalls pendingRun) ∧
    ((ApproveTransaction (runCalls pendingRun) ⟨1, "0xNonOwner"⟩).2.approvalsOf 1).length = 2 :=
  ⟨rfl,
    ((((ApproveTransaction_validation_order (runCalls pendingRun) ⟨1, "0xNonOwner"⟩).2.1
      ⟨1, 1, "0xRecipient", 100, "pending", [⟨1, 1, 1⟩, ⟨2, 1, 2⟩]⟩ rfl).2 rfl).2
      ⟨1, "Test Wallet", [⟨1, 1, "0xOwner1"⟩, ⟨2, 1, "0xOwner2"⟩, ⟨3, 1, "0xOwner3"⟩], 3, []⟩
      rfl).1 (by decide),
    rfl⟩

/-- C18: only owners of the right wallet are counted.  In every reachable state each
stored approval refers to a stored transaction and to a stored owner whose wallet is
the wallet of that transaction; hence no transaction has more approvals than its
wallet has owners. -/
theorem approvals_by_wallet_owners (db : DB) (h : Reachable db) :
    (∀ a ∈ db.approvals, ∃ t ∈ db.transactions, t.ID = a.TransactionID ∧
      ∃ o ∈ db.owners, o.ID = a.OwnerID ∧ o.WalletID = t.WalletID) ∧
    (∀ t ∈ db.transactions,
      (db.approvalsOf t.ID).length ≤ (db.ownersOf t.WalletID).length) := by
  have inv := h.inv
  constructor
  · intro a ha
    obtain ⟨t, ht, hta⟩ := inv.approvalTransaction a ha
    obtain ⟨o, ho, hoa, _⟩ := inv.approvalOwner a ha t ht hta
    exact ⟨t, ht, hta, o, (mem_ownersOf.mp ho).1, hoa, (mem_ownersOf.mp ho).2⟩
  · intro t ht
    have hsub : (db.approvalsOf t.ID).map (·.OwnerID) ⊆
        (db.ownersOf t.WalletID).map (·.ID) := by
      intro x hx
      obtain ⟨a, ha, hax⟩ := List.mem_map.mp hx
      obtain ⟨ham, hat⟩ := mem_approvalsOf.mp ha
      obtain ⟨o, ho, hoa, _⟩ := inv.approvalOwner a ham t ht hat.symm
      exact List.mem_map.mpr ⟨o, ho, hoa.trans hax⟩
    have hle := (List.subperm_of_subset (inv.approvalDistinct t.ID) hsub).length_le
    simpa using hle

/-- Witness for C18: the 3-of-3 run, whose transaction has two approvals and whose
wallet has three owners. -/
theorem approvals_by_wallet_owners_witness :
    Reachable (runCalls pendingRun) ∧
    ((runCalls pendingRun).approvalsOf 1).length = 2 ∧
    ((runCalls pendingRun).ownersOf 1).length = 3 ∧
    ∀ t ∈ (runCalls pendingRun).transactions,
      ((runCalls pendingRun).approvalsOf t.ID).length ≤
        ((runCalls pendingRun).ownersOf t.WalletID).length :=
  ⟨reachable_runCalls pendingRun, rfl, rfl,
    (approvals_by_wallet_owners (runCalls pendingRun) (reachable_runCalls pendingRun)).2⟩

/-- The conversion to `int` is exact below `2 ^ 63`. -/
theorem uintToInt_small {x : Nat} (h : x < 2 ^ 63) : uintToInt x = (x : Int) := by
  have h64 : x % 2 ^ 64 = x := Nat.mod_eq_of_lt (lt_trans h (by norm_num))
  simp only [uintToInt, uintBits, h64]
  rw [if_pos (by simpa using h)]

/-- What the owner-creation loop writes: one owner row per address, in order, each
scoped to the wallet, with identities that keep the primary key unique. -/
theorem createOwners_owners (db : DB) (wid : Nat) (addresses : List String) :
    ∃ news : List Owner,
      (createOwners db wid addresses).owners = db.owners ++ news ∧
      news.map (·.Address) = addresses ∧
      (∀ o ∈ news, o.WalletID = wid) ∧
      ((db.owners.map (·.ID)).Nodup → ((db.owners ++ news).map (·.ID)).Nodup) := by
  induction addresses generalizing db with
  | nil => exact ⟨[], by simp [createOwners], rfl, by simp, by simp⟩
  | cons a rest ih =>
    obtain ⟨news, h1, h2, h3, h4⟩ := ih (db.createOwner wid a)
    have hown : (db.createOwner wid a).owners =
        db.owners ++ [⟨nextID (db.owners.map (·.ID)), wid, a⟩] := rfl
    rw [hown] at h1 h4
    refine ⟨⟨nextID (db.owners.map (·.ID)), wid, a⟩ :: news, ?_, ?_, ?_, ?_⟩
    · rw [createOwners, h1, List.append_assoc]
      rfl
    · simp [h2]
    · intro o ho
      rcases List.mem_cons.mp ho with rfl | ho1
      · rfl
      · exact h3 o ho1
    · intro hnd
      have h5 := h4 (by simpa using nodup_append_nextID hnd)
      rw [List.append_assoc] at h5
      exact h5

/-- C12: whenever the threshold does not exceed the number of supplied addresses
(threshold 0 and the empty list included), `CreateWallet` succeeds.  It appends one
wallet row with a fresh identity, the given name and threshold, and one owner row per
address; the returned wallet lists exactly these new owners, in the order supplied,
each scoped to the new wallet and each with an identity of its own, different from
every existing owner.  Existing wallets and owners, and all transactions and
approvals, are unchanged. -/
theorem CreateWallet_success (db : DB) (hc : Consistent db) (input : CreateWalletInput)
    (hlen : input.Owners.length < 2 ^ 63)
    (hth : input.Threshold ≤ input.Owners.length) :
    ∃ (wid : Nat) (owners : List Owner),
      CreateWallet db input =
        (.ok ⟨wid, input.Name, owners, input.Threshold, []⟩,
          ⟨db.wallets ++ [⟨wid, input.Name, input.Threshold⟩], db.owners ++ owners,
            db.transactions, db.approvals⟩) ∧
      (∀ w ∈ db.wallets, w.ID ≠ wid) ∧
      owners.map (·.Address) = input.Owners ∧
      (∀ o ∈ owners, o.WalletID = wid) ∧
      (owners.map (·.ID)).Nodup ∧
      (∀ o ∈ owners, ∀ o2 ∈ db.owners, o.ID ≠ o2.ID) := by
  have hg : ¬ (input.Owners.length : Int) < uintToInt input.Threshold := by
    rw [uintToInt_small (lt_of_le_of_lt hth hlen)]
    exact_mod_cast Nat.not_lt.mpr hth
  have hres := CreateWallet_ok db input hg
  obtain ⟨news, h1, h2, h3, h4⟩ := createOwners_owners
    (db.createWallet input.Name input.Threshold).2 (nextID (db.wallets.map (·.ID)))
    input.Owners
  have hw := createOwners_wallets (db.createWallet input.Name input.Threshold).2
    (nextID (db.wallets.map (·.ID))) input.Owners
  have ht := createOwners_transactions (db.createWallet input.Name input.Threshold).2
    (nextID (db.wallets.map (·.ID))) input.Owners
  have ha := createOwners_approvals (db.createWallet input.Name input.Threshold).2
    (nextID (db.wallets.map (·.ID))) input.Owners
  have hfresh : ∀ w ∈ db.wallets, w.ID ≠ nextID (db.wallets.map (·.ID)) := by
    intro w hwm he
    have hm : w.ID ∈ db.wallets.map (·.ID) := List.mem_map_of_mem _ hwm
    rw [he] at hm
    exact nextID_not_mem _ hm
  have hold : db.owners.filter
      (fun o => decide (o.WalletID = nextID (db.wallets.map (·.ID)))) = [] := by
    rw [List.filter_eq_nil_iff]
    intro o ho
    obtain ⟨w, hwm, hwo⟩ := hc.ownerWallet o ho
    simp only [decide_eq_true_eq]
    intro he
    exact hfresh w hwm (hwo.trans he)
  have hnew : news.filter
      (fun o => decide (o.WalletID = nextID (db.wallets.map (·.ID)))) = news := by
    rw [List.filter_eq_self]
    intro o ho
    simp [h3 o ho]
  have hnd := h4 hc.ownerIDs
  have hdb1 : (db.createWallet input.Name input.Threshold).2.owners = db.owners := rfl
  rw [hdb1] at h1 hnd
  rw [List.map_append, List.nodup_append] at hnd
  refine ⟨nextID (db.wallets.map (·.ID)), news, ?_, hfresh, h2, h3, hnd.2.1, ?_⟩
  · rw [hres]
    generalize createOwners (db.createWallet input.Name input.Threshold).2
      (nextID (db.wallets.map (·.ID))) input.Owners = X at h1 hw ht ha
    obtain ⟨xw, xo, xt, xa⟩ := X
    simp only at h1 hw ht ha
    subst h1 hw ht ha
    simp only [DB.ownersOf, List.filter_append, hold, hnew, List.nil_append]
    rfl
  · intro o ho o2 ho2 he
    exact hnd.2.2 (List.mem_map_of_mem _ ho2) (he ▸ List.mem_map_of_mem (·.ID) ho)

/-- Witness for C12: the 2-of-3 wallet of `TestCreateWallet` on the empty store, and a
wallet with no owner and threshold 0. -/
theorem CreateWallet_success_witness :
    (∃ (wid : Nat) (owners : List Owner),
      (CreateWallet DB.empty ⟨"Test Wallet", testOwners, 2⟩).1 =
        .ok ⟨wid, "Test Wallet", owners, 2, []⟩ ∧
      owners.map (·.Address) = testOwners) ∧
    (∃ (wid : Nat) (owners : List Owner),
      (CreateWallet DB.empty ⟨"Open", [], 0⟩).1 = .ok ⟨wid, "Open", owners, 0, []⟩ ∧
      owners.map (·.Address) = []) := by
  constructor
  · obtain ⟨wid, owners, h1, _, h3, _⟩ := CreateWallet_success DB.empty
      Inv.init.toConsistent ⟨"Test Wallet", testOwners, 2⟩ (by decide) (by decide)
    exact ⟨wid, owners, by rw [h1], h3⟩
  · obtain ⟨wid, owners, h1, _, h3, _⟩ := CreateWallet_success DB.empty
      Inv.init.toConsistent ⟨"Open", [], 0⟩ (by decide) (by decide)
    exact ⟨wid, owners, by rw [h1], h3⟩

theorem SubmitTransaction_wallets_owners (db : DB) (input : SubmitTransactionInput) :
    (SubmitTransaction db input).2.wallets = db.wallets ∧
    (SubmitTransaction db input).2.owners = db.owners := by
  rcases SubmitTransaction_cases db input with ⟨e, he⟩ | ⟨w, hw, ho⟩
  · rw [he]
    exact ⟨rfl, rfl⟩
  · rw [SubmitTransaction_ok hw ho]
    exact ⟨rfl, rfl⟩

theorem ApproveTransaction_wallets_owners (db : DB) (input : ApproveTransactionInput) :
    (ApproveTransaction db input).2.wallets = db.wallets ∧
    (ApproveTransaction db input).2.owners = db.owners := by
  rcases ApproveTransaction_cases db input with ⟨e, he⟩ | ⟨r, w, hr, hp, hw, ho, hd⟩
  · rw [he]
    exact ⟨rfl, rfl⟩
  · rw [ApproveTransaction_ok hr hp hw ho hd]
    split <;> exact ⟨rfl, rfl⟩

/-- Counterexample to C13 as stated: a wallet created with threshold 0 is stored in a
reachable state, so the lower bound `1 ≤ threshold` does not hold there. -/
theorem wallet_with_zero_threshold :
    Reachable (runCalls [.createWallet ⟨"Open", ["0xOwner1"], 0⟩]) ∧
    (runCalls [.createWallet ⟨"Open", ["0xOwner1"], 0⟩]).wallets = [⟨1, "Open", 0⟩] ∧
    ¬ (∀ w ∈ (runCalls [.createWallet ⟨"Open", ["0xOwner1"], 0⟩]).wallets,
        1 ≤ w.Threshold ∧
        w.Threshold ≤
          ((runCalls [.createWallet ⟨"Open", ["0xOwner1"], 0⟩]).ownersOf w.ID).length) := by
  refine ⟨reachable_runCalls _, rfl, ?_⟩
  intro h
  have h1 := (h ⟨1, "Open", 0⟩ (by decide)).1
  exact absurd h1 (by decide)

/-- C13, as the code has it: in every reachable state, every wallet whose threshold is
below `2 ^ 63` satisfies threshold ≤ number of its owners.  No lower bound holds: a
threshold of 0 and a wallet without owners are accepted. -/
theorem threshold_le_owners (db : DB) (h : Reachable db) (w : WalletRow)
    (hw : w ∈ db.wallets) (hs : w.Threshold < 2 ^ 63) :
    w.Threshold ≤ (db.ownersOf w.ID).length := by
  induction h generalizing w with
  | empty => cases hw
  | step db c _ ih =>
    cases c with
    | createWallet input =>
      simp only [Call.run] at hw ⊢
      by_cases hg : (input.Owners.length : Int) < uintToInt input.Threshold
      · rw [CreateWallet_rejected db input hg] at hw ⊢
        exact ih w hw hs
      · rw [CreateWallet_ok db input hg] at hw ⊢
        simp only at hw ⊢
        obtain ⟨news, h1, h2, h3, _⟩ := createOwners_owners
          (db.createWallet input.Name input.Threshold).2
          (nextID (db.wallets.map (·.ID))) input.Owners
        have hdb1 : (db.createWallet input.Name input.Threshold).2.owners = db.owners := rfl
        rw [hdb1] at h1
        rw [createOwners_wallets] at hw
        simp only [DB.ownersOf, h1, List.filter_append, List.length_append]
        rcases List.mem_append.mp hw with hw1 | hw1
        · have := ih w hw1 hs
          simp only [DB.ownersOf] at this
          omega
        · rw [List.mem_singleton] at hw1
          subst hw1
          simp only at hs ⊢
          have hnew : news.filter
              (fun o => decide (o.WalletID = nextID (db.wallets.map (·.ID)))) = news := by
            rw [List.filter_eq_self]
            intro o ho
            simp [h3 o ho]
          have hlen : news.length = input.Owners.length := by
            rw [← h2, List.length_map]
          rw [uintToInt_small hs] at hg
          have hle : input.Threshold ≤ input.Owners.length := by
            have := Int.not_lt.mp hg
            exact_mod_cast this
          rw [hnew, hlen]
          omega
    | submitTransaction input =>
      simp only [Call.run] at hw ⊢
      obtain ⟨h1, h2⟩ := SubmitTransaction_wallets_owners db input
      rw [h1] at hw
      simp only [DB.ownersOf, h2]
      exact ih w hw hs
    | approveTransaction input =>
      simp only [Call.run] at hw ⊢
      obtain ⟨h1, h2⟩ := ApproveTransaction_wallets_owners db input
      rw [h1] at hw
      simp only [DB.ownersOf, h2]
      exact ih w hw hs

/-- Witness for C13 as amended: the 2-of-3 wallet of the run has three owners. -/
theorem threshold_le_owners_witness :
    Reachable (runCalls quorumRun) ∧
    (⟨1, "Test Wallet", 2⟩ : WalletRow) ∈ (runCalls quorumRun).wallets ∧
    (2 : Nat) ≤ ((runCalls quorumRun).ownersOf 1).length :=
  ⟨reachable_runCalls quorumRun, by decide,
    threshold_le_owners (runCalls quorumRun) (reachable_runCalls quorumRun)
      ⟨1, "Test Wallet", 2⟩ (by decide) (by decide)⟩

/-! ## Approval attempts run one after the other -/

/-- Once the transaction is no longer pending, further approval attempts on it leave
the store as it is. -/
theorem approveAll_notPending {db : DB} {tid : Nat} {r : TransactionRow}
    (hr : db.transactions.find? (fun t => decide (t.ID = tid)) = some r)
    (hp : r.Status ≠ statusPending) (addresses : List String) :
    approveAll db tid addresses = db := by
  induction addresses with
  | nil => rfl
  | cons a rest ih =>
    have hin : db.transactions.find?
        (fun t => decide (t.ID = (⟨tid, a⟩ : ApproveTransactionInput).TransactionID)) =
        some r := hr
    rw [approveAll, ApproveTransaction_notPending hin hp]
    exact ih

/-- Approval attempts by distinct owners who have not approved yet, on a pending
transaction below its threshold, run one after the other: the attempts are accepted
in order, each adding its approval, until the count reaches the threshold; that
attempt writes the ready status and all later ones are rejected. -/
theorem approveAll_pending (addresses : List String) :
    ∀ (db : DB), Inv db → ∀ (r : TransactionRow) (w : WalletRow),
      r ∈ db.transactions → r.Status = statusPending →
      w ∈ db.wallets → w.ID = r.WalletID →
      (db.approvalsOf r.ID).length < w.Threshold →
      (∀ a ∈ addresses, (resolveOwner (db.ownersOf w.ID) a).1 = true) →
      (addresses.map (fun a => (resolveOwner (db.ownersOf w.ID) a).2)).Nodup →
      (∀ a ∈ addresses, (resolveOwner (db.ownersOf w.ID) a).2 ∉
        (db.approvalsOf r.ID).map (·.OwnerID)) →
      ((approveAll db r.ID addresses).approvalsOf r.ID).map (·.OwnerID) =
        (db.approvalsOf r.ID).map (·.OwnerID) ++
          (addresses.take (w.Threshold - (db.approvalsOf r.ID).length)).map
            (fun a => (resolveOwner (db.ownersOf w.ID) a).2) ∧
      (approveAll db r.ID addresses).transactions.find?
          (fun x => decide (x.ID = r.ID)) =
        some ⟨r.ID, r.WalletID, r.To, r.Amount,
          if w.Threshold ≤ (db.approvalsOf r.ID).length + addresses.length
          then statusReady else statusPending⟩ := by
  induction addresses with
  | nil =>
    intro db inv r w hrm hp _ _ hc _ _ _
    have hr := find_key_of_mem inv.transactionIDs hrm
    have hnot : ¬ w.Threshold ≤ (db.approvalsOf r.ID).length + 0 := by omega
    refine ⟨by simp [approveAll], ?_⟩
    simp only [approveAll, List.length_nil, if_neg hnot]
    rw [hr, ← hp]
  | cons a rest ih =>
    intro db inv r w hrm hp hwm hwid hc hvalid hnd hfresh
    have hr : db.transactions.find?
        (fun t => decide (t.ID = (⟨r.ID, a⟩ : ApproveTransactionInput).TransactionID)) =
        some r := find_key_of_mem inv.transactionIDs hrm
    have hw : db.wallets.find? (fun x => decide (x.ID = r.WalletID)) = some w := by
      rw [← hwid]
      exact find_key_of_mem inv.walletIDs hwm
    have ho : (resolveOwner (db.ownersOf w.ID)
        (⟨r.ID, a⟩ : ApproveTransactionInput).OwnerAddress).1 = true :=
      hvalid a (List.mem_cons_self _ _)
    have hnew : (resolveOwner (db.ownersOf w.ID) a).2 ∉
        (db.approvalsOf r.ID).map (·.OwnerID) := hfresh a (List.mem_cons_self _ _)
    have hd : alreadyApproved (db.approvalsOf r.ID)
        (resolveOwner (db.ownersOf w.ID)
          (⟨r.ID, a⟩ : ApproveTransactionInput).OwnerAddress).2 = false := by
      cases hb : alreadyApproved (db.approvalsOf r.ID)
          (resolveOwner (db.ownersOf w.ID) a).2 with
      | false => rfl
      | true => exact absurd (alreadyApproved_true.mp hb) hnew
    have hres := ApproveTransaction_ok hr hp hw ho hd
    simp only at hres
    have happ : (db.createApproval r.ID (resolveOwner (db.ownersOf w.ID) a).2).approvalsOf
        r.ID = db.approvalsOf r.ID ++ [⟨nextID (db.approvals.map (·.ID)), r.ID,
          (resolveOwner (db.ownersOf w.ID) a).2⟩] := by
      simp [approvalsOf_createApproval]
    rw [List.map_cons, List.nodup_cons] at hnd
    by_cases hth : w.Threshold ≤ (db.approvalsOf r.ID).length + 1
    · rw [if_pos hth] at hres
      have hfind : ((db.createApproval r.ID
          (resolveOwner (db.ownersOf w.ID) a).2).saveTransaction
          ⟨r.ID, r.WalletID, r.To, r.Amount, statusReady,
            db.approvalsOf r.ID ++ [⟨nextID (db.approvals.map (·.ID)), r.ID,
              (resolveOwner (db.ownersOf w.ID) a).2⟩]⟩).transactions.find?
          (fun x => decide (x.ID = r.ID)) =
          some ⟨r.ID, r.WalletID, r.To, r.Amount, statusReady⟩ := by
        rw [find_saveTransaction]
        have hf : (db.createApproval r.ID
            (resolveOwner (db.ownersOf w.ID) a).2).transactions.find?
            (fun x => decide (x.ID = r.ID)) = some r := hr
        rw [hf]
        simp
      have hone : w.Threshold - (db.approvalsOf r.ID).length = 1 := by omega
      have hrdy : w.Threshold ≤ (db.approvalsOf r.ID).length + (a :: rest).length := by
        simp only [List.length_cons]
        omega
      rw [approveAll, hres]
      simp only
      rw [approveAll_notPending hfind statusReady_ne_pending rest]
      refine ⟨?_, ?_⟩
      · have hsame : ((db.createApproval r.ID
            (resolveOwner (db.ownersOf w.ID) a).2).saveTransaction
            ⟨r.ID, r.WalletID, r.To, r.Amount, statusReady,
              db.approvalsOf r.ID ++ [⟨nextID (db.approvals.map (·.ID)), r.ID,
                (resolveOwner (db.ownersOf w.ID) a).2⟩]⟩).approvalsOf r.ID =
            (db.createApproval r.ID (resolveOwner (db.ownersOf w.ID) a).2).approvalsOf
              r.ID := rfl
        rw [hsame, happ, hone]
        simp
      · rw [hfind, if_pos hrdy]
    · rw [if_neg hth] at hres
      have hwid2 := hwid
      obtain ⟨o, hmem, hid, _, hores⟩ := resolveOwner_owner ho
      rw [hwid] at hmem hores
      have inv1 : Inv (db.createApproval r.ID (resolveOwner (db.ownersOf w.ID) a).2) :=
        inv.createApproval hrm ⟨o, hmem, hid, hores⟩ hnew
      have hc1 : ((db.createApproval r.ID
          (resolveOwner (db.ownersOf w.ID) a).2).approvalsOf r.ID).length <
          w.Threshold := by
        rw [happ, List.length_append, List.length_singleton]
        omega
      have hfresh1 : ∀ b ∈ rest, (resolveOwner (db.ownersOf w.ID) b).2 ∉
          ((db.createApproval r.ID
            (resolveOwner (db.ownersOf w.ID) a).2).approvalsOf r.ID).map (·.OwnerID) := by
        intro b hb hmemb
        rw [happ, List.map_append, List.mem_append] at hmemb
        rcases hmemb with h1 | h1
        · exact hfresh b (List.mem_cons_of_mem _ hb) h1
        · simp only [List.map_cons, List.map_nil, List.mem_singleton] at h1
          exact hnd.1 (List.mem_map.mpr ⟨b, hb, h1⟩)
      have hih := ih (db.createApproval r.ID (resolveOwner (db.ownersOf w.ID) a).2) inv1
        r w hrm hp hwm hwid2 hc1
        (fun b hb => hvalid b (List.mem_cons_of_mem _ hb)) hnd.2 hfresh1
      have hown : (db.createApproval r.ID
          (resolveOwner (db.ownersOf w.ID) a).2).ownersOf w.ID = db.ownersOf w.ID := rfl
      rw [hown, happ] at hih
      rw [approveAll, hres]
      simp only
      obtain ⟨h1, h2⟩ := hih
      have hstep : w.Threshold - (db.approvalsOf r.ID).length =
          (w.Threshold - (db.approvalsOf r.ID ++
            [(⟨nextID (db.approvals.map (·.ID)), r.ID,
              (resolveOwner (db.ownersOf w.ID) a).2⟩ : Approval)]).length) + 1 := by
        rw [List.length_append, List.length_singleton]
        omega
      refine ⟨?_, ?_⟩
      · rw [h1, hstep, List.take_succ_cons]
        simp
      · rw [h2]
        have hiff : (w.Threshold ≤ (db.approvalsOf r.ID ++
            [(⟨nextID (db.approvals.map (·.ID)), r.ID,
              (resolveOwner (db.ownersOf w.ID) a).2⟩ : Approval)]).length + rest.length) ↔
            (w.Threshold ≤ (db.approvalsOf r.ID).length + (a :: rest).length) := by
          rw [List.length_append, List.length_singleton, List.length_cons]
          omega
        by_cases hq : w.Threshold ≤ (db.approvalsOf r.ID).length + (a :: rest).length
        · rw [if_pos hq, if_pos (hiff.mpr hq)]
        · rw [if_neg hq, if_neg (fun h => hq (hiff.mp h))]

/-- Counterexample to C17 as stated: on the 2-of-4 wallet, after the first owner
submits, the three other owners attempt to approve (N = 3, T = 2).  In each of the
six orders in which the three attempts can take effect the final approval count is 2,
not 3: the attempts made after the threshold is reached are rejected. -/
theorem serial_approvals_count_not_attempts :
    Reachable (runCalls freshRun) ∧
    (runCalls freshRun).firstTransaction 1 =
      some ⟨1, 1, "0xRecipient", 100, "pending", [⟨1, 1, 1⟩]⟩ ∧
    (∀ order ∈ [["0xOwner2", "0xOwner3", "0xOwner4"], ["0xOwner2", "0xOwner4", "0xOwner3"],
        ["0xOwner3", "0xOwner2", "0xOwner4"], ["0xOwner3", "0xOwner4", "0xOwner2"],
        ["0xOwner4", "0xOwner2", "0xOwner3"], ["0xOwner4", "0xOwner3", "0xOwner2"]],
      ((approveAll (runCalls freshRun) 1 order).approvalsOf 1).length = 2 ∧
      ((approveAll (runCalls freshRun) 1 order).approvalsOf 1).length ≠ order.length) ∧
    ApproveTransaction
        (approveAll (runCalls freshRun) 1 ["0xOwner2"]) ⟨1, "0xOwner3"⟩ =
      (.error .notPending, approveAll (runCalls freshRun) 1 ["0xOwner2"]) :=
  ⟨reachable_runCalls freshRun, rfl, by decide, rfl⟩

/-- C17, as the code has it, for attempts that take effect one at a time.  On a
transaction just submitted to a wallet with threshold T ≥ 2, let N ≥ T owners of the
wallet, pairwise distinct and none of them the submitter, attempt to approve, in any
order.  The first T - 1 attempts are accepted, each adding its approval to that of the
submitter; the attempt that brings the count to T writes the ready status, and every
later attempt is rejected and adds nothing.  So the final approval count is T, no
accepted approval is lost, and the final status is ready to execute. -/
theorem serial_approvals_stop_at_threshold (db0 : DB) (h0 : Reachable db0)
    (input : SubmitTransactionInput) (w : MultiSigWallet) (tx : Transaction)
    (hw : db0.firstWallet input.WalletID = some w)
    (hsub : (SubmitTransaction db0 input).1 = .ok tx)
    (addresses : List String)
    (hvalid : ∀ a ∈ addresses, (resolveOwner w.Owners a).1 = true)
    (hdistinct : (addresses.map (fun a => (resolveOwner w.Owners a).2)).Nodup)
    (hother : ∀ a ∈ addresses,
      (resolveOwner w.Owners a).2 ≠ (resolveOwner w.Owners input.From).2)
    (hT2 : 2 ≤ w.Threshold) (hTN : w.Threshold ≤ addresses.length) :
    ∃ t, (approveAll (SubmitTransaction db0 input).2 tx.ID addresses).firstTransaction
        tx.ID = some t ∧
      t.Approvals.length = w.Threshold ∧
      t.Approvals.map (·.OwnerID) =
        (resolveOwner w.Owners input.From).2 ::
          (addresses.take (w.Threshold - 1)).map (fun a => (resolveOwner w.Owners a).2) ∧
      t.Status = statusReady ∧
      (t.Status = statusReady ↔ w.Threshold ≤ addresses.length) := by
  obtain ⟨wr, hwr, rfl⟩ := firstWallet_eq_some hw
  simp only at hvalid hdistinct hother hT2 hTN ⊢
  have inv := h0.inv.SubmitTransaction input
  rcases SubmitTransaction_cases db0 input with ⟨e, he⟩ | ⟨w2, hw2, ho⟩
  · rw [he] at hsub
    cases hsub
  · rw [hwr] at hw2
    cases hw2
    have hok := SubmitTransaction_ok hwr ho
    rw [hok] at hsub inv ⊢
    simp only [Except.ok.injEq] at hsub
    subst hsub
    simp only
    have hwm : wr ∈ db0.wallets := (find_key_some hwr).1
    have hcount : ((db0.createTransaction wr.ID input.To input.Amount
        statusPending).2.createApproval (nextID (db0.transactions.map (·.ID)))
        (resolveOwner (db0.ownersOf wr.ID) input.From).2).approvalsOf
        (nextID (db0.transactions.map (·.ID))) =
        [⟨nextID (db0.approvals.map (·.ID)), nextID (db0.transactions.map (·.ID)),
          (resolveOwner (db0.ownersOf wr.ID) input.From).2⟩] := by
      have hold := approvalsOf_nextID h0.inv.toConsistent
      unfold DB.approvalsOf at hold
      simp [DB.approvalsOf, DB.createTransaction, DB.createApproval, List.filter_append,
        hold]
    have hrm : (⟨nextID (db0.transactions.map (·.ID)), wr.ID, input.To, input.Amount,
        statusPending⟩ : TransactionRow) ∈
        ((db0.createTransaction wr.ID input.To input.Amount
          statusPending).2.createApproval (nextID (db0.transactions.map (·.ID)))
          (resolveOwner (db0.ownersOf wr.ID) input.From).2).transactions :=
      List.mem_append_right _ (List.mem_singleton_self _)
    obtain ⟨hA, hB⟩ := approveAll_pending addresses _ inv
      ⟨nextID (db0.transactions.map (·.ID)), wr.ID, input.To, input.Amount, statusPending⟩
      wr hrm rfl hwm rfl
      (by
        show List.length (((db0.createTransaction wr.ID input.To input.Amount
          statusPending).2.createApproval (nextID (db0.transactions.map (·.ID)))
          (resolveOwner (db0.ownersOf wr.ID) input.From).2).approvalsOf
          (nextID (db0.transactions.map (·.ID)))) < wr.Threshold
        rw [hcount]
        exact hT2)
      hvalid hdistinct
      (by
        intro a ha
        show (resolveOwner (db0.ownersOf wr.ID) a).2 ∉
          (((db0.createTransaction wr.ID input.To input.Amount
            statusPending).2.createApproval (nextID (db0.transactions.map (·.ID)))
            (resolveOwner (db0.ownersOf wr.ID) input.From).2).approvalsOf
            (nextID (db0.transactions.map (·.ID)))).map (·.OwnerID)
        rw [hcount]
        simp only [List.map_cons, List.map_nil, List.mem_singleton]
        exact hother a ha)
    simp only at hA hB
    rw [hcount] at hA hB
    simp only [List.map_cons, List.map_nil, List.length_singleton, List.singleton_append]
      at hA hB
    have hown : ((db0.createTransaction wr.ID input.To input.Amount
        statusPending).2.createApproval (nextID (db0.transactions.map (·.ID)))
        (resolveOwner (db0.ownersOf wr.ID) input.From).2).ownersOf wr.ID =
        db0.ownersOf wr.ID := rfl
    rw [hown] at hA
    have hready : wr.Threshold ≤ 1 + addresses.length := by omega
    rw [if_pos hready] at hB
    have hft : (approveAll ((db0.createTransaction wr.ID input.To input.Amount
        statusPending).2.createApproval (nextID (db0.transactions.map (·.ID)))
        (resolveOwner (db0.ownersOf wr.ID) input.From).2)
        (nextID (db0.transactions.map (·.ID))) addresses).firstTransaction
        (nextID (db0.transactions.map (·.ID))) =
        some ⟨nextID (db0.transactions.map (·.ID)), wr.ID, input.To, input.Amount,
          statusReady,
          (approveAll ((db0.createTransaction wr.ID input.To input.Amount
            statusPending).2.createApproval (nextID (db0.transactions.map (·.ID)))
            (resolveOwner (db0.ownersOf wr.ID) input.From).2)
            (nextID (db0.transactions.map (·.ID))) addresses).approvalsOf
            (nextID (db0.transactions.map (·.ID)))⟩ := by
      unfold DB.firstTransaction
      rw [hB]
    refine ⟨_, hft, ?_, hA, rfl, ?_⟩
    · have hlen := congrArg List.length hA
      simp only [List.length_map, List.length_cons, List.length_take] at hlen
      simp only
      omega
    · exact ⟨fun _ => hTN, fun _ => rfl⟩

/-- Witness for C17 as amended: on the 2-of-4 wallet the three other owners attempt in
two different orders; both end with the approvals of the submitter and of the first
attempting owner, and the transaction ready to execute. -/
theorem serial_approvals_stop_at_threshold_witness :
    Reachable (runCalls freshRun) ∧
    (approveAll (runCalls freshRun) 1
      ["0xOwner2", "0xOwner3", "0xOwner4"]).firstTransaction 1 =
      some ⟨1, 1, "0xRecipient", 100, "ready_to_execute", [⟨1, 1, 1⟩, ⟨2, 1, 2⟩]⟩ ∧
    (approveAll (runCalls freshRun) 1
      ["0xOwner4", "0xOwner3", "0xOwner2"]).firstTransaction 1 =
      some ⟨1, 1, "0xRecipient", 100, "ready_to_execute", [⟨1, 1, 1⟩, ⟨2, 1, 4⟩]⟩ ∧
    ∃ t, (approveAll (runCalls freshRun) 1
        ["0xOwner3", "0xOwner2", "0xOwner4"]).firstTransaction 1 = some t ∧
      t.Approvals.length = 2 ∧ t.Status = statusReady := by
  refine ⟨reachable_runCalls freshRun, rfl, rfl, ?_⟩
  obtain ⟨t, h1, h2, _, h4, _⟩ := serial_approvals_stop_at_threshold
    (runCalls [.createWallet
      ⟨"Test Wallet", ["0xOwner1", "0xOwner2", "0xOwner3", "0xOwner4"], 2⟩])
    (reachable_runCalls _) ⟨1, "0xOwner1", "0xRecipient", 100⟩
    ⟨1, "Test Wallet", [⟨1, 1, "0xOwner1"⟩, ⟨2, 1, "0xOwner2"⟩, ⟨3, 1, "0xOwner3"⟩,
      ⟨4, 1, "0xOwner4"⟩], 2, []⟩
    ⟨1, 1, "0xRecipient", 100, "pending", []⟩ rfl rfl
    ["0xOwner3", "0xOwner2", "0xOwner4"] (by decide) (by decide) (by decide)
    (by decide) (by decide)
  exact ⟨t, h1, h2, h4⟩

end Wallet

namespace Ledger

/-! ## Basic facts about the balance map -/

theorem mapGet_mapSet_self (m : List (String × Nat)) (k : String) (v : Nat) :
    mapGet (mapSet m k v) k = v := by
  induction m with
  | nil => simp [mapSet, mapGet]
  | cons e rest ih =>
    by_cases h : e.1 = k
    · simp [mapSet, mapGet, h]
    · simp [mapSet, mapGet, h, ih]

theorem mapGet_mapSet_ne (m : List (String × Nat)) {k k2 : String} (v : Nat)
    (hne : k2 ≠ k) : mapGet (mapSet m k v) k2 = mapGet m k2 := by
  induction m with
  | nil =>
    have : ¬ k = k2 := fun e => hne e.symm
    simp [mapSet, mapGet, this]
  | cons e rest ih =>
    by_cases h : e.1 = k
    · have h2 : ¬ e.1 = k2 := fun e2 => hne (e2.symm.trans h)
      have h3 : ¬ k = k2 := fun e2 => hne e2.symm
      simp [mapSet, mapGet, h, h2, h3]
    · by_cases h2 : e.1 = k2
      · subst h2
        simp [mapSet, mapGet, h]
      · simp [mapSet, mapGet, h, h2, ih]

/-- Writing a balance changes the sum of all balances by the difference between the
value written and the value held before. -/
theorem sumBalances_mapSet (m : List (String × Nat)) (k : String) (v : Nat) :
    sumBalances (mapSet m k v) + mapGet m k = sumBalances m + v := by
  induction m with
  | nil => simp [mapSet, mapGet, sumBalances]
  | cons e rest ih =>
    by_cases h : e.1 = k
    · simp [mapSet, mapGet, sumBalances, h]
      omega
    · simp only [mapSet, mapGet, sumBalances, h, if_false, List.map_cons, List.sum_cons]
        at ih ⊢
      omega

theorem mem_keys_mapSet (m : List (String × Nat)) (k : String) (v : Nat) (x : String) :
    x ∈ (mapSet m k v).map (·.1) ↔ x ∈ m.map (·.1) ∨ x = k := by
  induction m with
  | nil => simp [mapSet]
  | cons e rest ih =>
    by_cases h : e.1 = k
    · simp only [mapSet, h, if_true, List.map_cons, List.mem_cons]
      constructor
      · rintro (h1 | h1)
        · exact Or.inr h1
        · exact Or.inl (Or.inr h1)
      · rintro ((h1 | h1) | h1)
        · exact Or.inl h1
        · exact Or.inr h1
        · exact Or.inl h1
    · simp only [mapSet, h, if_false, List.map_cons, List.mem_cons, ih]
      tauto

theorem nodup_keys_mapSet {m : List (String × Nat)} (k : String) (v : Nat)
    (h : (m.map (·.1)).Nodup) : ((mapSet m k v).map (·.1)).Nodup := by
  induction m with
  | nil => simp [mapSet]
  | cons e rest ih =>
    rw [List.map_cons, List.nodup_cons] at h
    by_cases he : e.1 = k
    · simp only [mapSet, he, if_true, List.map_cons, List.nodup_cons]
      exact ⟨he ▸ h.1, h.2⟩
    · simp only [mapSet, he, if_false, List.map_cons, List.nodup_cons]
      refine ⟨?_, ih h.2⟩
      intro hm
      rcases (mem_keys_mapSet rest k v e.1).mp hm with h1 | h1
      · exact h.1 h1
      · exact he h1

theorem range_mapSet {m : List (String × Nat)} (k : String) {v : Nat}
    (h : ∀ e ∈ m, e.2 < 2 ^ 64) (hv : v < 2 ^ 64) : ∀ e ∈ mapSet m k v, e.2 < 2 ^ 64 := by
  induction m with
  | nil =>
    intro e he
    simp only [mapSet, List.mem_singleton] at he
    rw [he]
    exact hv
  | cons e0 rest ih =>
    intro e he
    by_cases h0 : e0.1 = k
    · simp only [mapSet, h0, if_true, List.mem_cons] at he
      rcases he with he | he
      · rw [he]
        exact hv
      · exact h e (List.mem_cons_of_mem _ he)
    · simp only [mapSet, h0, if_false, List.mem_cons] at he
      rcases he with he | he
      · rw [he]
        exact h e0 (List.mem_cons_self _ _)
      · exact ih (fun x hx => h x (List.mem_cons_of_mem _ hx)) e he

theorem mapGet_lt {m : List (String × Nat)} (h : ∀ e ∈ m, e.2 < 2 ^ 64) (k : String) :
    mapGet m k < 2 ^ 64 := by
  induction m with
  | nil => simp [mapGet]
  | cons e rest ih =>
    by_cases he : e.1 = k
    · simp only [mapGet, he, if_true]
      exact h e (List.mem_cons_self _ _)
    · simp only [mapGet, he, if_false]
      exact ih (fun x hx => h x (List.mem_cons_of_mem _ hx))

theorem add64_lt (x y : Nat) : add64 x y < 2 ^ 64 := Nat.mod_lt _ (by norm_num)

theorem sub64_lt (x y : Nat) : sub64 x y < 2 ^ 64 := Nat.mod_lt _ (by norm_num)

/-- Under the balance check the `uint64` subtraction does not wrap. -/
theorem sub64_exact {x y : Nat} (hx : x < 2 ^ 64) (hle : y ≤ x) : sub64 x y + y = x := by
  unfold sub64
  omega

/-! ## Closed forms of `Transfer` -/

theorem Transfer_fail {t : Token} {fromAddr : String} {amount : Nat} (toAddr : String)
    (h : mapGet t.Balances fromAddr < amount) :
    t.Transfer fromAddr toAddr amount = (some .insufficientBalance, t) := by
  simp [Token.Transfer, h]

theorem Transfer_ok {t : Token} {fromAddr : String} {amount : Nat} (toAddr : String)
    (h : amount ≤ mapGet t.Balances fromAddr) :
    t.Transfer fromAddr toAddr amount =
      (none, ⟨t.Name, t.Symbol, t.Decimals, t.TotalSupply,
        mapSet (mapSet t.Balances fromAddr (sub64 (mapGet t.Balances fromAddr) amount))
          toAddr
          (add64 (mapGet (mapSet t.Balances fromAddr
            (sub64 (mapGet t.Balances fromAddr) amount)) toAddr) amount)⟩) := by
  have : ¬ mapGet t.Balances fromAddr < amount := Nat.not_lt.mpr h
  simp [Token.Transfer, this]

/-! ## Well-typed ledgers -/

theorem wellTyped_NewToken (name symbol : String) (decimals : Nat) {s : Nat}
    (hs : s < 2 ^ 64) : (NewToken name symbol decimals s).WellTyped :=
  ⟨hs, fun e he => (by cases he), List.nodup_nil⟩

theorem Token.WellTyped.mint {t : Token} (h : t.WellTyped) (toAddr : String) (amount : Nat) :
    (t.Mint toAddr amount).WellTyped :=
  ⟨add64_lt _ _, range_mapSet _ h.balances (add64_lt _ _), nodup_keys_mapSet _ _ h.keys⟩

theorem Token.WellTyped.transfer {t : Token} (h : t.WellTyped) (fromAddr toAddr : String)
    (amount : Nat) : (t.Transfer fromAddr toAddr amount).2.WellTyped := by
  by_cases hlt : mapGet t.Balances fromAddr < amount
  · rw [Transfer_fail toAddr hlt]
    exact h
  · rw [Transfer_ok toAddr (Nat.not_lt.mp hlt)]
    exact ⟨h.supply,
      range_mapSet _ (range_mapSet _ h.balances (sub64_lt _ _)) (add64_lt _ _),
      nodup_keys_mapSet _ _ (nodup_keys_mapSet _ _ h.keys)⟩

/-- Every ledger reachable from a new token with a `uint64` initial supply is
well typed. -/
theorem LedgerReachable.wellTyped {name symbol : String} {decimals s : Nat} {t : Token}
    (hs : s < 2 ^ 64) (h : LedgerReachable name symbol decimals s t) : t.WellTyped := by
  induction h with
  | init => exact wellTyped_NewToken name symbol decimals hs
  | step t c _ ih =>
    cases c with
    | mint toAddr amount => exact ih.mint toAddr amount
    | transfer fromAddr toAddr amount => exact ih.transfer fromAddr toAddr amount

/-! ## The claims about the ledger -/

/-- C14: `Transfer` returns the "insufficient balance" error if and only if the balance
of the source account (0 for an unknown account) is less than the amount, and returns
no error otherwise.  When it fails the ledger is unchanged, balances and total supply
alike.  When it succeeds the debit does not underflow: for distinct accounts the new
balance of the source plus the amount is the old balance. -/
theorem Transfer_insufficient_balance (t : Token) (ht : t.WellTyped)
    (fromAddr toAddr : String) (amount : Nat) :
    ((t.Transfer fromAddr toAddr amount).1 = some .insufficientBalance ↔
      mapGet t.Balances fromAddr < amount) ∧
    ((t.Transfer fromAddr toAddr amount).1 = none ↔
      amount ≤ mapGet t.Balances fromAddr) ∧
    (mapGet t.Balances fromAddr < amount → (t.Transfer fromAddr toAddr amount).2 = t) ∧
    (amount ≤ mapGet t.Balances fromAddr → fromAddr ≠ toAddr →
      mapGet (t.Transfer fromAddr toAddr amount).2.Balances fromAddr + amount =
        mapGet t.Balances fromAddr) ∧
    TokenError.insufficientBalance.Error = "insufficient balance" := by
  by_cases hlt : mapGet t.Balances fromAddr < amount
  · have hres := Transfer_fail toAddr hlt
    refine ⟨?_, ?_, ?_, ?_, rfl⟩
    · rw [hres]
      exact ⟨fun _ => hlt, fun _ => rfl⟩
    · rw [hres]
      constructor
      · intro h
        cases h
      · intro h
        omega
    · intro _
      rw [hres]
    · intro h
      omega
  · have hle := Nat.not_lt.mp hlt
    have hres := Transfer_ok toAddr hle
    refine ⟨?_, ?_, ?_, ?_, rfl⟩
    · rw [hres]
      constructor
      · intro h
        cases h
      · intro h
        exact absurd h hlt
    · rw [hres]
      exact ⟨fun _ => hle, fun _ => rfl⟩
    · intro h
      exact absurd h hlt
    · intro _ hne
      rw [hres]
      simp only
      rw [mapGet_mapSet_ne _ _ hne, mapGet_mapSet_self]
      exact sub64_exact (mapGet_lt ht.balances fromAddr) hle

/-- Witness for C14: after `Mint(alice, 500)` a transfer of 501 from alice fails and a
transfer of 200 succeeds, leaving alice 300. -/
theorem Transfer_insufficient_balance_witness :
    (testToken.Mint "alice" 500).WellTyped ∧
    ((testToken.Mint "alice" 500).Transfer "alice" "bob" 501).1 =
      some .insufficientBalance ∧
    ((testToken.Mint "alice" 500).Transfer "alice" "bob" 501).2 =
      testToken.Mint "alice" 500 ∧
    mapGet ((testToken.Mint "alice" 500).Transfer "alice" "bob" 200).2.Balances "alice"
      + 200 = 500 := by
  have hw : (testToken.Mint "alice" 500).WellTyped :=
    (wellTyped_NewToken "BlackHole" "BHT" 18
      (by decide : (1000000 : Nat) < 2 ^ 64)).mint "alice" 500
  refine ⟨hw, ?_, ?_, ?_⟩
  · exact (Transfer_insufficient_balance _ hw "alice" "bob" 501).1.mpr (by decide)
  · exact (Transfer_insufficient_balance _ hw "alice" "bob" 501).2.2.1 (by decide)
  · exact (Transfer_insufficient_balance _ hw "alice" "bob" 200).2.2.2.1 (by decide)
      (by decide)

/-- Counterexample to C15 as stated: with bob holding `2 ^ 64 - 1` and alice holding 1
(both minted on the test token), the transfer of 1 from alice to bob succeeds, and the
balance of bob wraps to 0 instead of growing by 1. -/
theorem Transfer_credit_wraps :
    LedgerReachable "BlackHole" "BHT" 18 1000000
      ((testToken.Mint "bob" (2 ^ 64 - 1)).Mint "alice" 1) ∧
    mapGet ((testToken.Mint "bob" (2 ^ 64 - 1)).Mint "alice" 1).Balances "alice" = 1 ∧
    mapGet ((testToken.Mint "bob" (2 ^ 64 - 1)).Mint "alice" 1).Balances "bob"
      = 2 ^ 64 - 1 ∧
    (((testToken.Mint "bob" (2 ^ 64 - 1)).Mint "alice" 1).Transfer "alice" "bob" 1).1
      = none ∧
    mapGet (((testToken.Mint "bob" (2 ^ 64 - 1)).Mint "alice" 1).Transfer
      "alice" "bob" 1).2.Balances "bob" = 0 ∧
    mapGet (((testToken.Mint "bob" (2 ^ 64 - 1)).Mint "alice" 1).Transfer
      "alice" "bob" 1).2.Balances "bob" ≠
      mapGet ((testToken.Mint "bob" (2 ^ 64 - 1)).Mint "alice" 1).Balances "bob" + 1 := by
  refine ⟨?_, by decide, by decide, by decide, by decide, by decide⟩
  exact LedgerReachable.step _ (.mint "alice" 1)
    (LedgerReachable.step _ (.mint "bob" (2 ^ 64 - 1)) LedgerReachable.init)

/-- C15, as the code has it: a transfer of an amount the source can cover succeeds and
leaves the total supply and the token's name, symbol and decimals unchanged.  Between
distinct accounts it lowers the balance of the source by the amount, sets the balance
of the destination to its old balance plus the amount modulo `2 ^ 64` (so it grows by
exactly the amount whenever that sum stays below `2 ^ 64`), and leaves every other
balance unchanged.  From an account to itself it leaves every balance unchanged. -/
theorem Transfer_moves_amount (t : Token) (ht : t.WellTyped) (fromAddr toAddr : String)
    (amount : Nat) (hle : amount ≤ mapGet t.Balances fromAddr) :
    (t.Transfer fromAddr toAddr amount).1 = none ∧
    (t.Transfer fromAddr toAddr amount).2.TotalSupply = t.TotalSupply ∧
    (t.Transfer fromAddr toAddr amount).2.Name = t.Name ∧
    (t.Transfer fromAddr toAddr amount).2.Symbol = t.Symbol ∧
    (t.Transfer fromAddr toAddr amount).2.Decimals = t.Decimals ∧
    (fromAddr ≠ toAddr →
      mapGet (t.Transfer fromAddr toAddr amount).2.Balances fromAddr + amount =
        mapGet t.Balances fromAddr ∧
      mapGet (t.Transfer fromAddr toAddr amount).2.Balances toAddr =
        (mapGet t.Balances toAddr + amount) % 2 ^ 64 ∧
      (mapGet t.Balances toAddr + amount < 2 ^ 64 →
        mapGet (t.Transfer fromAddr toAddr amount).2.Balances toAddr =
          mapGet t.Balances toAddr + amount) ∧
      ∀ k, k ≠ fromAddr → k ≠ toAddr →
        mapGet (t.Transfer fromAddr toAddr amount).2.Balances k = mapGet t.Balances k) ∧
    (fromAddr = toAddr →
      ∀ k, mapGet (t.Transfer fromAddr toAddr amount).2.Balances k =
        mapGet t.Balances k) := by
  have hb := mapGet_lt ht.balances fromAddr
  have hsub := sub64_exact hb hle
  rw [Transfer_ok toAddr hle]
  refine ⟨rfl, rfl, rfl, rfl, rfl, ?_, ?_⟩
  · intro hne
    have hne2 : toAddr ≠ fromAddr := fun e => hne e.symm
    have hto : mapGet (mapSet (mapSet t.Balances fromAddr
        (sub64 (mapGet t.Balances fromAddr) amount)) toAddr
        (add64 (mapGet (mapSet t.Balances fromAddr
          (sub64 (mapGet t.Balances fromAddr) amount)) toAddr) amount)) toAddr =
        (mapGet t.Balances toAddr + amount) % 2 ^ 64 := by
      rw [mapGet_mapSet_self, mapGet_mapSet_ne _ _ hne2]
      rfl
    refine ⟨?_, hto, ?_, ?_⟩
    · simp only
      rw [mapGet_mapSet_ne _ _ hne, mapGet_mapSet_self]
      exact hsub
    · intro hsmall
      simp only at hto ⊢
      rw [hto, Nat.mod_eq_of_lt hsmall]
    · intro k hk1 hk2
      simp only
      rw [mapGet_mapSet_ne _ _ hk2, mapGet_mapSet_ne _ _ hk1]
  · intro he k
    subst he
    simp only
    by_cases hk : k = fromAddr
    · subst hk
      rw [mapGet_mapSet_self, mapGet_mapSet_self]
      unfold add64
      rw [hsub, Nat.mod_eq_of_lt hb]
    · rw [mapGet_mapSet_ne _ _ hk, mapGet_mapSet_ne _ _ hk]

/-- Witness for C15 as amended: after `Mint(alice, 500)` and
`Transfer(alice, bob, 200)`, bob holds 200 and alice 300 (`TestToken`). -/
theorem Transfer_moves_amount_witness :
    ((testToken.Mint "alice" 500).Transfer "alice" "bob" 200).1 = none ∧
    mapGet ((testToken.Mint "alice" 500).Transfer "alice" "bob" 200).2.Balances "bob"
      = 200 ∧
    mapGet ((testToken.Mint "alice" 500).Transfer "alice" "bob" 200).2.Balances "alice"
      + 200 = 500 := by
  have h := Transfer_moves_amount (testToken.Mint "alice" 500)
    ((wellTyped_NewToken "BlackHole" "BHT" 18
      (by decide : (1000000 : Nat) < 2 ^ 64)).mint "alice" 500) "alice" "bob" 200
    (by decide)
  obtain ⟨h1, _, _, _, _, h6, _⟩ := h
  obtain ⟨h7, _, h9, _⟩ := h6 (by decide)
  exact ⟨h1, h9 (by decide), h7⟩

/-- Counterexample to C16 as stated: minting `2 ^ 64 - 1` on the new test token (total
supply 1000000) leaves a total supply of 999999, which is not the old supply plus the
amount; minting 1 more to the same account wraps its balance from `2 ^ 64 - 1` to 0. -/
theorem Mint_wraps :
    (testToken.Mint "alice" (2 ^ 64 - 1)).TotalSupply = 999999 ∧
    (testToken.Mint "alice" (2 ^ 64 - 1)).TotalSupply ≠
      testToken.TotalSupply + (2 ^ 64 - 1) ∧
    mapGet (testToken.Mint "alice" (2 ^ 64 - 1)).Balances "alice" = 2 ^ 64 - 1 ∧
    mapGet ((testToken.Mint "alice" (2 ^ 64 - 1)).Mint "alice" 1).Balances "alice" = 0 ∧
    mapGet ((testToken.Mint "alice" (2 ^ 64 - 1)).Mint "alice" 1).Balances "alice" ≠
      mapGet (testToken.Mint "alice" (2 ^ 64 - 1)).Balances "alice" + 1 := by
  refine ⟨by decide, by decide, by decide, by decide, by decide⟩

/-- C16, as the code has it: `Mint` sets the balance of the account to its old balance
plus the amount modulo `2 ^ 64` and the total supply to the old supply plus the amount
modulo `2 ^ 64` (each grows by exactly the amount whenever the sum stays below
`2 ^ 64`), and leaves every other balance unchanged.  A token fresh from `NewToken`
has total supply `initialSupply` and all balances 0, and minting a `uint64` amount on
it gives the account exactly that amount. -/
theorem Mint_adds_amount (t : Token) (toAddr : String) (amount : Nat) :
    mapGet (t.Mint toAddr amount).Balances toAddr =
      (mapGet t.Balances toAddr + amount) % 2 ^ 64 ∧
    (t.Mint toAddr amount).TotalSupply = (t.TotalSupply + amount) % 2 ^ 64 ∧
    (∀ k, k ≠ toAddr → mapGet (t.Mint toAddr amount).Balances k = mapGet t.Balances k) ∧
    (mapGet t.Balances toAddr + amount < 2 ^ 64 →
      mapGet (t.Mint toAddr amount).Balances toAddr = mapGet t.Balances toAddr + amount) ∧
    (t.TotalSupply + amount < 2 ^ 64 →
      (t.Mint toAddr amount).TotalSupply = t.TotalSupply + amount) ∧
    (∀ (name symbol : String) (decimals s : Nat),
      (NewToken name symbol decimals s).TotalSupply = s ∧
      (∀ k, mapGet (NewToken name symbol decimals s).Balances k = 0) ∧
      (amount < 2 ^ 64 →
        mapGet ((NewToken name symbol decimals s).Mint toAddr amount).Balances toAddr
          = amount)) := by
  have h1 : mapGet (t.Mint toAddr amount).Balances toAddr =
      (mapGet t.Balances toAddr + amount) % 2 ^ 64 := by
    simp only [Token.Mint]
    rw [mapGet_mapSet_self]
    rfl
  have h2 : (t.Mint toAddr amount).TotalSupply = (t.TotalSupply + amount) % 2 ^ 64 := rfl
  refine ⟨h1, h2, ?_, ?_, ?_, ?_⟩
  · intro k hk
    simp only [Token.Mint]
    rw [mapGet_mapSet_ne _ _ hk]
  · intro hsmall
    rw [h1, Nat.mod_eq_of_lt hsmall]
  · intro hsmall
    rw [h2, Nat.mod_eq_of_lt hsmall]
  · intro name symbol decimals s
    refine ⟨rfl, fun k => rfl, ?_⟩
    intro ha
    simp only [Token.Mint, NewToken]
    rw [mapGet_mapSet_self]
    simp only [add64, mapGet, Nat.zero_add]
    exact Nat.mod_eq_of_lt ha

/-- Witness for C16 as amended: `Mint(alice, 500)` on the new test token gives alice
500 and a total supply of 1000500 (`TestToken`). -/
theorem Mint_adds_amount_witness :
    mapGet (testToken.Mint "alice" 500).Balances "alice" = 500 ∧
    (testToken.Mint "alice" 500).TotalSupply = 1000500 :=
  ⟨((Mint_adds_amount testToken "alice" 500).2.2.2.2.2 "BlackHole" "BHT" 18 1000000).2.2
      (by decide),
    (Mint_adds_amount testToken "alice" 500).2.2.2.2.1 (by decide)⟩

/-! ## Supply accounting -/

/-- A transfer, successful or failing, keeps the total supply and keeps the sum of all
balances modulo `2 ^ 64`. -/
theorem Transfer_keeps_sum (t : Token) (fromAddr toAddr : String) (amount : Nat) :
    (t.Transfer fromAddr toAddr amount).2.TotalSupply = t.TotalSupply ∧
    sumBalances (t.Transfer fromAddr toAddr amount).2.Balances % 2 ^ 64 =
      sumBalances t.Balances % 2 ^ 64 := by
  by_cases hlt : mapGet t.Balances fromAddr < amount
  · rw [Transfer_fail toAddr hlt]
    exact ⟨rfl, rfl⟩
  · have hle := Nat.not_lt.mp hlt
    rw [Transfer_ok toAddr hle]
    refine ⟨rfl, ?_⟩
    simp only
    have e1 := sumBalances_mapSet t.Balances fromAddr
      (sub64 (mapGet t.Balances fromAddr) amount)
    have e2 := sumBalances_mapSet
      (mapSet t.Balances fromAddr (sub64 (mapGet t.Balances fromAddr) amount)) toAddr
      (add64 (mapGet (mapSet t.Balances fromAddr
        (sub64 (mapGet t.Balances fromAddr) amount)) toAddr) amount)
    have key : ∀ (s0 s1 s2 b c a : Nat), a ≤ b →
        s1 + b = s0 + (b + 2 ^ 64 - a) % 2 ^ 64 →
        s2 + c = s1 + (c + a) % 2 ^ 64 → s2 % 2 ^ 64 = s0 % 2 ^ 64 := by
      intro s0 s1 s2 b c a h0 h1 h2
      omega
    exact key _ _ _ _ _ _ hle e1 e2

/-- Minting adds the amount to the sum of all balances modulo `2 ^ 64`. -/
theorem Mint_sum (t : Token) (toAddr : String) (amount : Nat) :
    sumBalances (t.Mint toAddr amount).Balances % 2 ^ 64 =
      (sumBalances t.Balances + amount) % 2 ^ 64 := by
  have e1 := sumBalances_mapSet t.Balances toAddr
    (add64 (mapGet t.Balances toAddr) amount)
  have key : ∀ (s0 s1 b a : Nat), s1 + b = s0 + (b + a) % 2 ^ 64 →
      s1 % 2 ^ 64 = (s0 + a) % 2 ^ 64 := by
    intro s0 s1 b a h1
    omega
  exact key _ _ _ _ e1

/-- C19: supply accounting.  In every ledger reachable from
`NewToken(name, symbol, decimals, s)` by `Mint` and `Transfer` calls, the total supply
is congruent to `s` plus the sum of all balances modulo `2 ^ 64`, the map holding one
entry per account.  The new token credits the initial supply to no account: its map
is empty.  A transfer from such a ledger, successful or failing, changes neither the
total supply nor the sum of balances modulo `2 ^ 64`. -/
theorem supply_accounting (name symbol : String) (decimals s : Nat) (t : Token)
    (h : LedgerReachable name symbol decimals s t) :
    t.TotalSupply % 2 ^ 64 = (s + sumBalances t.Balances) % 2 ^ 64 ∧
    (t.Balances.map (·.1)).Nodup ∧
    (NewToken name symbol decimals s).Balances = [] ∧
    (∀ fromAddr toAddr amount,
      (t.Transfer fromAddr toAddr amount).2.TotalSupply = t.TotalSupply ∧
      sumBalances (t.Transfer fromAddr toAddr amount).2.Balances % 2 ^ 64 =
        sumBalances t.Balances % 2 ^ 64) := by
  refine ⟨?_, ?_, rfl, fun f d a => Transfer_keeps_sum t f d a⟩
  · induction h with
    | init => simp [NewToken, sumBalances]
    | step t c _ ih =>
      cases c with
      | mint toAddr amount =>
        have e1 := Mint_sum t toAddr amount
        have e2 : (t.Mint toAddr amount).TotalSupply = (t.TotalSupply + amount) % 2 ^ 64 :=
          rfl
        simp only [LedgerCall.run]
        omega
      | transfer fromAddr toAddr amount =>
        obtain ⟨e1, e2⟩ := Transfer_keeps_sum t fromAddr toAddr amount
        simp only [LedgerCall.run]
        omega
  · induction h with
    | init => exact List.nodup_nil
    | step t c _ ih =>
      cases c with
      | mint toAddr amount => exact nodup_keys_mapSet _ _ ih
      | transfer fromAddr toAddr amount =>
        simp only [LedgerCall.run]
        by_cases hlt : mapGet t.Balances fromAddr < amount
        · rw [Transfer_fail toAddr hlt]
          exact ih
        · rw [Transfer_ok toAddr (Nat.not_lt.mp hlt)]
          exact nodup_keys_mapSet _ _ (nodup_keys_mapSet _ _ ih)

/-- Witness for C19: the ledger of `TestToken` after `Mint(alice, 500)` and
`Transfer(alice, bob, 200)`: total supply 1000500, balances summing to 500. -/
theorem supply_accounting_witness :
    ((testToken.Mint "alice" 500).Transfer "alice" "bob" 200).2.TotalSupply = 1000500 ∧
    sumBalances ((testToken.Mint "alice" 500).Transfer "alice" "bob" 200).2.Balances
      = 500 ∧
    ((testToken.Mint "alice" 500).Transfer "alice" "bob" 200).2.TotalSupply % 2 ^ 64 =
      (1000000 + sumBalances
        ((testToken.Mint "alice" 500).Transfer "alice" "bob" 200).2.Balances) % 2 ^ 64 :=
  ⟨by decide, by decide,
    (supply_accounting "BlackHole" "BHT" 18 1000000
      ((testToken.Mint "alice" 500).Transfer "alice" "bob" 200).2
      (LedgerReachable.step _ (.transfer "alice" "bob" 200)
        (LedgerReachable.step _ (.mint "alice" 500) LedgerReachable.init))).1⟩

end Ledger
